import Mathlib

/-!
Verification of the momepy `elements.py` core (tessellation, street snapping,
block assembly) against its natural-language specification.

The geometric kernel (shapely / GDAL / scipy Voronoi) is external to the
repository; per the spec it is a collaborator, not part of the core.  We embed
the control flow of `elements.py` faithfully and abstract kernel operations
(buffer, intersection, spatial index queries) either as data already produced
by the kernel (lists of typed intersection results) or as oracle function
parameters.  All quantities compared for equality or order in the source
(`areas`, `distances`) are embedded over exact arithmetic; Euclidean distance
comparisons are embedded as squared-distance comparisons, which select the
same minima because squaring is strictly monotone on nonnegative reals.
-/

namespace Momepy

/-! ## Part 1: `_regions` filtering and the dissolve step of `tessellation`
(elements.py lines 101-131, 359-377).

A `RegionRow` is one row of the DataFrame built in `_regions`: the owner id of
the seed point (`-1` is the bounding-hull sentinel), the Voronoi region's
vertex-index list (scipy uses `-1` for the vertex at infinity), and the region
polygon, kept abstract (type `G`) with its perimeter supplied by `len`.
-/

structure RegionRow (G : Type) where
  owner : ℤ
  vertexIndices : List ℤ
  geom : G

/-- Source `_regions` (lines 119-129): a row survives iff its vertex list has
no `-1` (bounded region, so a polygon was built and `dropna` keeps the row),
its perimeter is below the `1000000` sanity threshold, and its owner is not
the hull sentinel `-1`. -/
def survives {G : Type} (len : G → ℚ) (r : RegionRow G) : Bool :=
  decide ((-1 : ℤ) ∉ r.vertexIndices) && decide (len r.geom < 1000000)
    && decide (r.owner ≠ -1)

/-- Source `_regions` as a row filter (construction of `regions_gdf`). -/
def regionsFilter {G : Type} (len : G → ℚ) (rows : List (RegionRow G)) :
    List (RegionRow G) :=
  rows.filter (survives len)

/-- Fold of the kernel's geometric union over a list of polygons, used to
model pandas `dissolve` geometry aggregation. -/
def foldUnion {G : Type} (op : G → G → G) (dflt : G) : List G → G
  | [] => dflt
  | g :: gs => gs.foldl op g

/-- Source line 366: `dissolve(by=unique_id)` groups rows by owner id and
unions each group's geometry, producing one output row per distinct owner. -/
def dissolveByOwner {G : Type} (op : G → G → G) (dflt : G)
    (rows : List (RegionRow G)) : List (ℤ × G) :=
  ((rows.map RegionRow.owner).dedup).map
    (fun i => (i, foldUnion op dflt ((rows.filter (fun r => r.owner = i)).map RegionRow.geom)))

/-- Sources lines 368-370: after the dissolve, `tessellation` only rewrites
geometry in place (the translate back to the original frame, and `_cut`,
which assigns `tessellation.loc[idx, 'geometry']` for the rows selected for
clipping).  Row set and owner-id column are untouched; the per-row geometry
rewrite is abstracted as `cellMap`. -/
def geometryRewrite {G : Type} (cellMap : ℤ → G → G) (rows : List (ℤ × G)) :
    List (ℤ × G) :=
  rows.map (fun ig => (ig.1, cellMap ig.1 ig.2))

/-- Rows of the final output of `tessellation` (owner id, geometry), as the
dissolve of the filtered Voronoi regions followed by in-place geometry
rewriting. -/
def tessellationRows {G : Type} (len : G → ℚ) (op : G → G → G) (dflt : G)
    (cellMap : ℤ → G → G) (rows : List (RegionRow G)) : List (ℤ × G) :=
  geometryRewrite cellMap (dissolveByOwner op dflt (regionsFilter len rows))

/-! ## Part 2: seed generation, `_point_array` (elements.py lines 74-98).

The boundary of each (already shrunk, exploded, densified) footprint is a
shapely geometry; `_point_array` branches on its type tag.  Any tag other
than `LineString` and `MultiLineString` raises
`Exception('Boundary type is ...')`, which propagates out of the whole call
(Python `raise` aborts the surrounding loop). -/

/-- Boundary geometry of a footprint as seen by `_point_array`: the two
accepted kinds carry their coordinate sequences; any other shapely type is
kept only as its type name (used in the raised message). -/
inductive Boundary where
  | lineString (coords : List (ℚ × ℚ))
  | multiLineString (parts : List (List (ℚ × ℚ)))
  | otherType (typeName : String)
deriving DecidableEq

structure FootRow where
  uid : ℤ
  boundary : Option Boundary
deriving DecidableEq

/-- Accumulator step for one row of `_point_array` (lines 81-97). -/
def pointArrayStep (acc : List (ℚ × ℚ) × List ℤ) (row : FootRow) :
    Except String (List (ℚ × ℚ) × List ℤ) :=
  match row.boundary with
  | none => Except.ok acc
  | some (Boundary.multiLineString parts) =>
      Except.ok (acc.1 ++ parts.flatten, acc.2 ++ parts.flatten.map (fun _ => row.uid))
  | some (Boundary.lineString coords) =>
      Except.ok (acc.1 ++ coords, acc.2 ++ coords.map (fun _ => row.uid))
  | some (Boundary.otherType t) => Except.error ("Boundary type is " ++ t)

/-- Source `_point_array` (lines 74-98): fold over the footprint rows,
appending each boundary's coordinates and its owner id per coordinate;
an unsupported boundary type raises, aborting the whole call. -/
def pointArray (rows : List FootRow) : Except String (List (ℚ × ℚ) × List ℤ) :=
  rows.foldlM pointArrayStep ([], [])

/-! ## Part 3: the shrink-buffer call site (elements.py line 338).

The source erodes each footprint with
`g.buffer(-shrink, cap_style=2, join_style=2)`.  Shapely numeric style codes:
cap styles are 1 = round, 2 = flat, 3 = square; join styles are 1 = round,
2 = mitre, 3 = bevel. -/

inductive CapStyle where
  | round | flat | square
deriving DecidableEq

inductive JoinStyle where
  | round | mitre | bevel
deriving DecidableEq

/-- Shapely numeric cap-style codes. -/
def capStyleOfCode : ℕ → Option CapStyle
  | 1 => some CapStyle.round
  | 2 => some CapStyle.flat
  | 3 => some CapStyle.square
  | _ => none

/-- Shapely numeric join-style codes. -/
def joinStyleOfCode : ℕ → Option JoinStyle
  | 1 => some JoinStyle.round
  | 2 => some JoinStyle.mitre
  | 3 => some JoinStyle.bevel
  | _ => none

/-- Arguments of one `buffer` invocation: the buffer distance as a function
of the `shrink` parameter, and the two style codes. -/
structure BufferCall where
  dist : ℚ → ℚ
  capCode : ℕ
  joinCode : ℕ

/-- Source line 338: `objects.geometry.apply(lambda g: g.buffer(-shrink,
cap_style=2, join_style=2))`. -/
def tessellationShrinkBuffer : BufferCall :=
  { dist := fun shrink => -shrink, capCode := 2, joinCode := 2 }

/-- Source line 338 applied across the footprint column, with the kernel's
buffer operation abstracted as `bufferOp dist capCode joinCode geom`. -/
def shrinkGeoms {G : Type} (bufferOp : ℚ → ℕ → ℕ → G → G) (shrink : ℚ)
    (gs : List G) : List G :=
  gs.map (bufferOp (tessellationShrinkBuffer.dist shrink)
    tessellationShrinkBuffer.capCode tessellationShrinkBuffer.joinCode)

/-! ## Part 4: `_cut` clip resolution (elements.py lines 184-200).

For each candidate cell, `_cut` computes `row.geometry.intersection(limit)`
and branches on the result's type tag.  We model geometries over a discrete
region model: a polygon is a finite set of atoms of the plane, its area the
number of atoms — a model of the kernel contract (area queries, intersection
as set intersection) sufficient to express the branch semantics exactly. -/

structure Poly where
  pts : Finset (ℤ × ℤ)
deriving DecidableEq

def Poly.area (p : Poly) : ℕ := p.pts.card

/-- Non-collection shapely geometries relevant to the clip branches. -/
inductive BasicGeom where
  | poly (p : Poly)
  | lineString (pts : Finset (ℤ × ℤ))
  | point (pt : ℤ × ℤ)
deriving DecidableEq

/-- Shapely result of a boolean operation: a basic geometry, a MultiPolygon,
or a GeometryCollection of basic parts. -/
inductive Geom where
  | basic (g : BasicGeom)
  | multiPoly (ps : List Poly)
  | geomColl (gs : List BasicGeom)
deriving DecidableEq

def BasicGeom.region : BasicGeom → Finset (ℤ × ℤ)
  | BasicGeom.poly p => p.pts
  | BasicGeom.lineString s => s
  | BasicGeom.point pt => {pt}

/-- Point set covered by a geometry. -/
def Geom.region : Geom → Finset (ℤ × ℤ)
  | Geom.basic g => g.region
  | Geom.multiPoly ps => (ps.map Poly.pts).foldr (· ∪ ·) ∅
  | Geom.geomColl gs => (gs.map BasicGeom.region).foldr (· ∪ ·) ∅

/-- Python `max(areas.items(), key=operator.itemgetter(1))[0]` over the dict
`{0: area_0, 1: area_1, ...}` (lines 187-191): scan left to right keeping the
current best, replacing it only on a strictly larger value, so the first
maximal index wins. -/
def argmaxAux (bi : ℕ) (bv : ℕ) (i : ℕ) : List ℕ → ℕ
  | [] => bi
  | a :: rest => if bv < a then argmaxAux i a (i + 1) rest else argmaxAux bi bv (i + 1) rest

/-- Index of the first maximal element of a nonempty list `a :: l`. -/
def argmaxFirst (a : ℕ) (l : List ℕ) : ℕ :=
  argmaxAux 0 a 1 l

/-- Lines 186-192: the MultiPolygon branch picks `intersection[maximal]`. -/
def selectLargest (p : Poly) (ps : List Poly) : Poly :=
  (p :: ps).getD (argmaxFirst p.area (ps.map Poly.area)) p

/-- Lines 193-198: the GeometryCollection branch loops over the parts,
assigning the cell geometry for every part whose type is `Polygon`, so the
last polygonal part is the one that sticks; `none` when no part is a
polygon (the loop then never assigns). -/
def lastPolyComp (gs : List BasicGeom) : Option Poly :=
  gs.foldl (fun acc g => match g with
    | BasicGeom.poly p => some p
    | _ => acc) none

/-- Source `_cut` body for one candidate cell (lines 184-200), with the
kernel's `·.intersection(limit)` abstracted as `interFn`. -/
def clipCell (interFn : Geom → Geom) (cell : Geom) : Geom :=
  match interFn cell with
  | Geom.multiPoly (p :: ps) => Geom.basic (BasicGeom.poly (selectLargest p ps))
  | Geom.multiPoly [] => cell
  | Geom.geomColl gs =>
      match lastPolyComp gs with
      | some p => Geom.basic (BasicGeom.poly p)
      | none => cell
  | g => g

/-- Concrete instantiation of `interFn`: componentwise intersection with the
atom set `L` of the limit (used to witness the clip theorems). -/
def interWith (L : Finset (ℤ × ℤ)) : Geom → Geom
  | Geom.basic (BasicGeom.poly p) => Geom.basic (BasicGeom.poly ⟨p.pts ∩ L⟩)
  | Geom.basic (BasicGeom.lineString s) => Geom.basic (BasicGeom.lineString (s ∩ L))
  | Geom.basic (BasicGeom.point pt) =>
      if pt ∈ L then Geom.basic (BasicGeom.point pt)
      else Geom.basic (BasicGeom.lineString ∅)
  | Geom.multiPoly ps => Geom.multiPoly (ps.map (fun p => ⟨p.pts ∩ L⟩))
  | Geom.geomColl gs => Geom.geomColl (gs.map (fun g => match g with
      | BasicGeom.poly p => BasicGeom.poly ⟨p.pts ∩ L⟩
      | BasicGeom.lineString s => BasicGeom.lineString (s ∩ L)
      | BasicGeom.point pt => if pt ∈ L then BasicGeom.point pt
          else BasicGeom.lineString ∅))

/-! ## Part 5: attribute joins of `blocks` (elements.py lines 739-748).

After the blocks are rebuilt, `blocks` forms one lookup table
`bl_ID_to_uID = centroids_w_bl_ID2[[unique_id, id_name]]` and merges it on
`unique_id` into the buildings frame and into the tessellation frame. -/

/-- Pandas `left.merge(table, on=key)` (inner join on the first component):
each left row pairs with every table row holding the same key. -/
def mergeOn {α β : Type} (left : List (ℤ × α)) (table : List (ℤ × β)) :
    List (ℤ × α × β) :=
  left.flatMap (fun la => ((table.filter (fun t => t.1 = la.1)).map
    (fun t => (la.1, la.2, t.2))))

/-! ## Part 6: `snap_street_network_edge` (elements.py lines 380-591).

Street edges are rows of a copied frame (`network = edges.copy()`); each row
carries its index label, its non-geometry columns (abstract `α`), and its
geometry as a coordinate list.  The geometry kernel and the once-built
spatial indices appear as an oracle: `netInter` stands for the rtree query +
`drop(idx)` + `.intersection(extrapolation)` pipeline of `extend_line`
(lines 442-445) and returns the typed per-candidate-edge intersections of the
extrapolated ray, `edgeInter` for `geometry.intersection(extrapolation)` of
`extend_line_edge` (line 501), `buildingHit` for the buildings-index query
plus `.intersection(new_extended_line).any()` veto (lines 474-478), and
`connected` for the endpoint-connectivity tests (lines 559-567).  The
trigonometric `getExtrapoledLine` is real-valued and lives inside the oracle;
the two source points it is given (`extra`) are computed exactly below. -/

structure Edge (α : Type) where
  eid : ℕ
  attrs : α
  geom : List (ℚ × ℚ)
deriving DecidableEq

/-- Squared Euclidean distance.  The source compares shapely `distance`
values; comparisons of squared distances select the same elements. -/
def sqdist (a b : ℚ × ℚ) : ℚ :=
  (a.1 - b.1) ^ 2 + (a.2 - b.2) ^ 2

/-- Shapely result of intersecting the extrapolated ray with one candidate
edge.  A shapely MultiPoint holds at least two points, split off here because
the source indexes `[0]` and `[1]`.  `lineOverlap` stands for any nonempty
result of another type (counts for `.any()`, ignored by `true_int`). -/
inductive SegInter where
  | point (p : ℚ × ℚ)
  | multiPoint (p0 p1 : ℚ × ℚ) (rest : List (ℚ × ℚ))
  | lineOverlap
  | emptyInter
deriving DecidableEq

/-- Truthiness of one intersection result: shapely geometries are truthy iff
nonempty, so `possible_intersections.any()` (line 447). -/
def SegInter.nonEmpty : SegInter → Bool
  | SegInter.emptyInter => false
  | _ => true

/-- Shapely result of intersecting the extrapolated ray with the dissolved
tessellation boundary (`extend_line_edge`, lines 501-511). -/
inductive EdgeInter where
  | point (p : ℚ × ℚ)
  | multiPoint (p0 p1 : ℚ × ℚ) (rest : List (ℚ × ℚ))
  | geomCollection
  | otherKind
deriving DecidableEq

structure SnapOracle (α : Type) where
  netInter : List (Edge α) → ℕ → ℚ → (ℚ × ℚ) → (ℚ × ℚ) → List SegInter
  edgeInter : ℚ → (ℚ × ℚ) → (ℚ × ℚ) → EdgeInter
  buildingHit : List (ℚ × ℚ) → Bool
  connected : List (Edge α) → ℕ → (ℚ × ℚ) → Bool

/-- Lines 449-455: `true_int` collects Point results whole and the first two
members of each MultiPoint, in candidate order; other types are skipped. -/
def trueInt : List SegInter → List (ℚ × ℚ)
  | [] => []
  | SegInter.point p :: rest => p :: trueInt rest
  | SegInter.multiPoint p0 p1 _ :: rest => p0 :: p1 :: trueInt rest
  | _ :: rest => trueInt rest

/-- Python `min(distances.items(), key=operator.itemgetter(1))[0]`
(lines 459-465): scan keeping the current best, replacing only on a strictly
smaller value, so the first minimal index wins. -/
def minIdxAux (bi : ℕ) (bv : ℚ) (i : ℕ) : List ℚ → ℕ
  | [] => bi
  | d :: rest => if d < bv then minIdxAux i d (i + 1) rest else minIdxAux bi bv (i + 1) rest

/-- Index of the first minimal element of a nonempty list `d :: l`. -/
def minIdxFirst (d : ℚ) (l : List ℚ) : ℕ :=
  minIdxAux 0 d 1 l

/-- Lines 457-468: `new_point_coords`, the member of `true_int` nearest to
the end point `base` being extended (`Point(l_coords[-1])`), first one on a
tie; when `true_int` is a singleton the source takes `true_int[0]`. -/
def chosenPoint (base : ℚ × ℚ) : List (ℚ × ℚ) → ℚ × ℚ
  | [] => base
  | p :: rest =>
      if rest.isEmpty then p
      else (p :: rest).getD (minIdxFirst (sqdist p base) (rest.map (fun q => sqdist q base))) p

/-- Lines 433-439 (shared with 490-496): the two points handed to
`getExtrapoledLine`.  When the final segment is degenerate
(`distance <= 0.001`, i.e. squared distance `<= 1/1000000`) the source takes
`l_coords[-3:-1]` if the line has a third point and otherwise returns
`False`; else it takes `l_coords[-2:]`. -/
def usedExtra (l : List (ℚ × ℚ)) : Option ((ℚ × ℚ) × (ℚ × ℚ)) :=
  let last := l.getLastD (0, 0)
  let last2 := l.reverse.getD 1 (0, 0)
  let last3 := l.reverse.getD 2 (0, 0)
  if sqdist last2 last ≤ 1 / 1000000 then
    if 2 < l.length then some (last3, last2) else none
  else some (last2, last)

/-- Write a new geometry into the network row labelled `idx`
(`network.loc[idx, 'geometry'] = new_extended_line`, line 481). -/
def setGeom {α : Type} (net : List (Edge α)) (idx : ℕ) (g : List (ℚ × ℚ)) :
    List (Edge α) :=
  net.map (fun e => if e.eid = idx then { e with geom := g } else e)

/-- State after one `extend_line` / `extend_line_edge` call: the (possibly
updated) network, the shared mutable `l_coords` list, and whether the call
returned `False` (the caller tests `is False`, which is distinct from the
implicit `None` return). -/
structure ExtendResult (α : Type) where
  network : List (Edge α)
  lCoords : List (ℚ × ℚ)
  retFalse : Bool
deriving DecidableEq

/-- Common tail of both extension functions (lines 457-481 and 513-537):
select the nearest collected intersection point, append it to `l_coords`,
and commit unless the extended line hits a building. -/
def commitChosen {α : Type} (O : SnapOracle α) (net : List (Edge α)) (idx : ℕ)
    (l : List (ℚ × ℚ)) (t : List (ℚ × ℚ)) : ExtendResult α :=
  if t.isEmpty then ⟨net, l, false⟩
  else if O.buildingHit (l ++ [chosenPoint (l.getLastD (0, 0)) t]) then
    ⟨net, l ++ [chosenPoint (l.getLastD (0, 0)) t], false⟩
  else ⟨setGeom net idx (l ++ [chosenPoint (l.getLastD (0, 0)) t]),
    l ++ [chosenPoint (l.getLastD (0, 0)) t], false⟩

/-- Source `extend_line` (lines 429-483). -/
def extendLine {α : Type} (O : SnapOracle α) (tolerance : ℚ)
    (net : List (Edge α)) (idx : ℕ) (l : List (ℚ × ℚ)) : ExtendResult α :=
  match usedExtra l with
  | none => ⟨net, l, true⟩
  | some (e1, e2) =>
      let inters := O.netInter net idx tolerance e1 e2
      if inters.any SegInter.nonEmpty then
        commitChosen O net idx l (trueInt inters)
      else ⟨net, l, true⟩

/-- Source `extend_line_edge` (lines 486-537).  A GeometryCollection result
skips the whole block; a result of any other non-point type leaves `true_int`
empty so nothing happens; neither returns `False`. -/
def extendLineEdge {α : Type} (O : SnapOracle α) (tolerance : ℚ)
    (net : List (Edge α)) (idx : ℕ) (l : List (ℚ × ℚ)) : ExtendResult α :=
  match usedExtra l with
  | none => ⟨net, l, true⟩
  | some (e1, e2) =>
      match O.edgeInter tolerance e1 e2 with
      | EdgeInter.geomCollection => ⟨net, l, false⟩
      | EdgeInter.otherKind => ⟨net, l, false⟩
      | EdgeInter.point p => commitChosen O net idx l [p]
      | EdgeInter.multiPoint p0 p1 _ => commitChosen O net idx l [p0, p1]

/-- Lines 574-575 (and their copies): `extend_line`, falling back to
`extend_line_edge` only when the former returned `False`. -/
def extendWithFallback {α : Type} (O : SnapOracle α) (tolS tolE : ℚ)
    (net : List (Edge α)) (idx : ℕ) (l : List (ℚ × ℚ)) : ExtendResult α :=
  let r := extendLine O tolS net idx l
  if r.retFalse then extendLineEdge O tolE r.network idx r.lCoords else r

/-- Loop body of the snapping pass for the row labelled `idx`
(lines 550-589).  `l_coords` is one shared Python list per row: in the
both-ends-loose branch the second phase reverses the list as left by the
first phase (including a point appended by a vetoed, uncommitted
extension). -/
def snapEdge {α : Type} (O : SnapOracle α) (tolS tolE : ℚ)
    (net : List (Edge α)) (idx : ℕ) : List (Edge α) :=
  match net.find? (fun e => e.eid = idx) with
  | none => net
  | some e =>
      let l := e.geom
      let first := O.connected net idx (l.headD (0, 0))
      let second := O.connected net idx (l.getLastD (0, 0))
      if first && second then net
      else if first && !second then
        (extendWithFallback O tolS tolE net idx l).network
      else if !first && second then
        (extendWithFallback O tolS tolE net idx l.reverse).network
      else
        let s1 := extendWithFallback O tolS tolE net idx l
        (extendWithFallback O tolS tolE s1.network idx s1.lCoords.reverse).network

/-- Source `snap_street_network_edge` (lines 539-591): copy the edges frame
and run the single snapping pass over the rows in input order. -/
def snapNetwork {α : Type} (O : SnapOracle α) (tolS tolE : ℚ)
    (edges : List (Edge α)) : List (Edge α) :=
  (edges.map Edge.eid).foldl (fun net idx => snapEdge O tolS tolE net idx) edges

/-- Shapes a snapped geometry may take relative to the input geometry `g`:
unchanged, or with one point appended at the end, or at the end of the
reversed sequence (the source reverses `l_coords` in place to extend the
start), or one point appended at each end (both-ends-loose branch, which
extends the reversal of the phase-one list). -/
def ExtendedFrom (g g2 : List (ℚ × ℚ)) : Prop :=
  g2 = g ∨ (∃ p, g2 = g ++ [p]) ∨ (∃ p, g2 = g.reverse ++ [p]) ∨
    (∃ p q, g2 = (g ++ [p]).reverse ++ [q])

/-- Oracle whose extrapolation meets two other edges, at distances 2 and 1
from the extended endpoint; no building is ever hit. -/
def twoPointOracle : SnapOracle Unit where
  netInter := fun _ _ _ _ _ => [SegInter.point (3, 0), SegInter.point (2, 0)]
  edgeInter := fun _ _ _ => EdgeInter.otherKind
  buildingHit := fun _ => false
  connected := fun _ _ _ => false

/-- Oracle with no intersections at all. -/
def emptyOracle : SnapOracle Unit where
  netInter := fun _ _ _ _ _ => []
  edgeInter := fun _ _ _ => EdgeInter.geomCollection
  buildingHit := fun _ => false
  connected := fun _ _ _ => false

def sampleEdge : Edge Unit := ⟨0, (), [(0, 0), (1, 0)]⟩

/-! ## Part 7: connected-component assignment in `blocks`
(elements.py lines 654-681).

Fragments are the exploded `cell − streets` pieces, indexed `0..n-1` by
their position in `blocks_gdf`; `Queen.from_dataframe` (external libpysal)
supplies for each fragment the list of its Queen-adjacent fragments, which we
take as the input `adj`.  The source loop

    for n in neighbours:
        while n not in to_join:
            to_join.append(n); neighbours += spatial_weights.neighbors[n]

iterates over the `neighbours` list while appending to it, i.e. it is a
worklist (breadth-first) traversal: pop the next entry, skip it if already in
`to_join`, otherwise add it and enqueue its neighbours.  The member list
`to_join` is used only through membership (every member gets the same patch
id), so we keep it as a `Finset`.  The traversal runs until the worklist is
empty; we embed it with a fuel argument and show that the fuel below never
runs out. -/

/-- Upper bound on the adjacency-list lengths. -/
def adjBound {n : ℕ} (adj : Fin n → List (Fin n)) : ℕ :=
  Finset.univ.sup (fun v => (adj v).length)

/-- Worklist traversal of lines 671-676: one unit of fuel per popped entry. -/
def bfsFuel {n : ℕ} (adj : Fin n → List (Fin n)) :
    ℕ → List (Fin n) → Finset (Fin n) → Finset (Fin n)
  | 0, _, visited => visited
  | _ + 1, [], visited => visited
  | fuel + 1, x :: rest, visited =>
      if x ∈ visited then bfsFuel adj fuel rest visited
      else bfsFuel adj fuel (rest ++ adj x) (insert x visited)

/-- Fuel sufficient for the worklist to drain: each pop either shortens the
queue or enlarges `to_join`, which holds at most `n` fragments. -/
def componentFuel {n : ℕ} (adj : Fin n → List (Fin n)) : ℕ :=
  n * (adjBound adj + 1)

/-- The `to_join` set computed for seed `s` (lines 665-676): start from
`to_join = [idx]` with worklist `spatial_weights.neighbors[idx]`. -/
def component {n : ℕ} (adj : Fin n → List (Fin n)) (s : Fin n) : Finset (Fin n) :=
  bfsFuel adj (componentFuel adj) (adj s) {s}

/-- One-step Queen adjacency as a relation. -/
def adjRel {n : ℕ} (adj : Fin n → List (Fin n)) (a b : Fin n) : Prop :=
  b ∈ adj a

/-- Reachability along Queen adjacency. -/
def Conn {n : ℕ} (adj : Fin n → List (Fin n)) : Fin n → Fin n → Prop :=
  Relation.ReflTransGen (adjRel adj)

/-- Outer loop of lines 657-679: scan the fragments in frame order, skip
those already in `patches`, otherwise stamp the whole `to_join` set with the
next fresh id `jID`. -/
def blocksLoop {n : ℕ} (adj : Fin n → List (Fin n)) :
    List (Fin n) → (Fin n → Option ℕ) → ℕ → (Fin n → Option ℕ)
  | [], p, _ => p
  | idx :: rest, p, j =>
      match p idx with
      | some _ => blocksLoop adj rest p j
      | none => blocksLoop adj rest
          (fun v => if v ∈ component adj idx then some j else p v) (j + 1)

/-- The patch id assigned to each fragment (`blocks_gdf['patch']`,
line 681); `jID` starts at 1. -/
def patchOf {n : ℕ} (adj : Fin n → List (Fin n)) (v : Fin n) : Option ℕ :=
  blocksLoop adj (List.finRange n) (fun _ => none) 1 v

/-- Adjacency of the same fragment set fed in permuted frame order: the
fragment at new position `v` is the old fragment `σ v`, and its neighbour
list is renumbered accordingly. -/
def relabel {n : ℕ} (adj : Fin n → List (Fin n)) (σ : Equiv.Perm (Fin n)) :
    Fin n → List (Fin n) :=
  fun v => (adj (σ v)).map σ.symm

/-- Three fragments, the first two Queen-adjacent, used by the witness. -/
def adj3 : Fin 3 → List (Fin 3)
  | 0 => [1]
  | 1 => [0]
  | 2 => []

/-! ## Concrete inputs used by witnesses and counterexamples. -/

def goodFootRow : FootRow :=
  ⟨2, some (Boundary.lineString [(0, 0), (1, 0), (0, 0)])⟩

def badFootRow : FootRow :=
  ⟨1, some (Boundary.otherType "Point")⟩

def squareFootRow : FootRow :=
  ⟨3, some (Boundary.lineString [(0, 0), (2, 0), (2, 2), (0, 2), (0, 0)])⟩

def polyA : Poly := ⟨{(0, 0)}⟩

def polyB : Poly := ⟨{(0, 0), (1, 0)}⟩

/-- Intersection oracle returning a fixed geometry, for witnesses. -/
def constInter (g : Geom) : Geom → Geom := fun _ => g

def limitL : Finset (ℤ × ℤ) := {(0, 0), (1, 0)}

def cellC : Geom := Geom.basic (BasicGeom.poly ⟨{(0, 0), (2, 2)}⟩)

/-! # Theorems -/

/-! ## C1: one output cell row per surviving owner id -/

theorem countP_fst_geometryRewrite {G : Type} (cellMap : ℤ → G → G)
    (rows : List (ℤ × G)) (i : ℤ) :
    (geometryRewrite cellMap rows).countP (fun x => decide (x.1 = i)) =
      rows.countP (fun x => decide (x.1 = i)) := by
  unfold geometryRewrite
  rw [List.countP_map]
  rfl

theorem countP_fst_dissolve {G : Type} (op : G → G → G) (dflt : G)
    (rows : List (RegionRow G)) (i : ℤ) :
    (dissolveByOwner op dflt rows).countP (fun x => decide (x.1 = i)) =
      ((rows.map RegionRow.owner).dedup).countP (fun x => decide (x = i)) := by
  unfold dissolveByOwner
  rw [List.countP_map]
  rfl

theorem countP_eq_count (l : List ℤ) (i : ℤ) :
    l.countP (fun x => decide (x = i)) = l.count i := by
  unfold List.count
  apply List.countP_congr
  intro a _
  by_cases h : a = i <;> simp [h]

/-- Claim C1: in the output of `tessellation`, every owner id that survives
the region filtering appears in exactly one row — the dissolve groups all
surviving single-part Voronoi polygons of an id (including the several parts
an eroded footprint may split into) into one cell, and the later in-place
geometry rewriting (translate back, `_cut`) neither adds, drops, nor retags
rows.  An id with no surviving region does not appear at all, so no id ever
occurs twice. -/
theorem tessellation_owner_unique {G : Type} (len : G → ℚ) (op : G → G → G)
    (dflt : G) (cellMap : ℤ → G → G) (rows : List (RegionRow G)) (i : ℤ) :
    (tessellationRows len op dflt cellMap rows).countP (fun x => decide (x.1 = i)) =
      if rows.any (fun r => survives len r && decide (r.owner = i)) then 1 else 0 := by
  unfold tessellationRows
  rw [countP_fst_geometryRewrite, countP_fst_dissolve, countP_eq_count]
  have hmem : i ∈ ((regionsFilter len rows).map RegionRow.owner).dedup ↔
      rows.any (fun r => survives len r && decide (r.owner = i)) = true := by
    rw [List.mem_dedup, List.mem_map, List.any_eq_true]
    constructor
    · rintro ⟨r, hr, hri⟩
      rw [regionsFilter, List.mem_filter] at hr
      exact ⟨r, hr.1, by simp [hr.2, hri]⟩
    · rintro ⟨r, hr, hsur⟩
      simp only [Bool.and_eq_true, decide_eq_true_eq] at hsur
      exact ⟨r, List.mem_filter.mpr ⟨hr, hsur.1⟩, hsur.2⟩
  by_cases hc : rows.any (fun r => survives len r && decide (r.owner = i)) = true
  · rw [if_pos hc]
    exact List.count_eq_one_of_mem (List.nodup_dedup _) (hmem.mpr hc)
  · rw [if_neg hc]
    exact List.count_eq_zero_of_not_mem (fun hm => hc (hmem.mp hm))

/-! ## C3: an unsupported boundary type aborts the whole `_point_array` call -/

/-- Claim C3, counterexample: a malformed boundary makes `_point_array` raise
and thereby abort the whole call — footprint 2, which alone yields three seed
points, contributes nothing once footprint 1 fails, so the failure does not
abort "only that entity's seed generation". -/
theorem pointArray_abort_counterexample :
    pointArray [badFootRow, goodFootRow] = Except.error "Boundary type is Point" ∧
    pointArray [goodFootRow] = Except.ok ([(0, 0), (1, 0), (0, 0)], [2, 2, 2]) := by
  constructor <;> rfl

theorem pointArrayStep_ok (acc : List (ℚ × ℚ) × List ℤ) (r : FootRow)
    (hr : ∀ t, r.boundary ≠ some (Boundary.otherType t)) :
    ∃ acc2, pointArrayStep acc r = Except.ok acc2 := by
  unfold pointArrayStep
  match h : r.boundary with
  | none => exact ⟨acc, rfl⟩
  | some (Boundary.multiLineString parts) => exact ⟨_, rfl⟩
  | some (Boundary.lineString coords) => exact ⟨_, rfl⟩
  | some (Boundary.otherType t) => exact absurd h (hr t)

theorem pointArray_go_error (pre : List FootRow) :
    ∀ (acc : List (ℚ × ℚ) × List ℤ) (bad : FootRow) (rest : List FootRow) (t : String),
    bad.boundary = some (Boundary.otherType t) →
    (∀ r ∈ pre, ∀ t2, r.boundary ≠ some (Boundary.otherType t2)) →
    List.foldlM pointArrayStep acc (pre ++ bad :: rest) =
      Except.error ("Boundary type is " ++ t) := by
  induction pre with
  | nil =>
      intro acc bad rest t hbad _
      simp only [List.nil_append, List.foldlM_cons]
      rw [show pointArrayStep acc bad = Except.error ("Boundary type is " ++ t) by
        unfold pointArrayStep; rw [hbad]]
      rfl
  | cons r pre ih =>
      intro acc bad rest t hbad hpre
      obtain ⟨acc2, hacc2⟩ := pointArrayStep_ok acc r (hpre r (List.mem_cons_self r pre))
      simp only [List.cons_append, List.foldlM_cons, hacc2]
      exact ih acc2 bad rest t hbad (fun r2 hr2 => hpre r2 (List.mem_cons_of_mem r hr2))

/-- Claim C3 amended: a footprint boundary that is neither a single nor multi
linestring makes `_point_array` raise `Exception('Boundary type is ...')`,
and the raise aborts the entire seed-generation call — no footprint after the
failing one is processed and no seed list is returned. -/
theorem pointArray_error_aborts_all (pre rest : List FootRow) (bad : FootRow)
    (t : String) (hbad : bad.boundary = some (Boundary.otherType t))
    (hpre : ∀ r ∈ pre, ∀ t2, r.boundary ≠ some (Boundary.otherType t2)) :
    pointArray (pre ++ bad :: rest) = Except.error ("Boundary type is " ++ t) :=
  pointArray_go_error pre ([], []) bad rest t hbad hpre

theorem pointArray_error_aborts_all_witness :
    badFootRow.boundary = some (Boundary.otherType "Point") ∧
    (∀ r ∈ [goodFootRow], ∀ t2, r.boundary ≠ some (Boundary.otherType t2)) ∧
    pointArray ([goodFootRow] ++ badFootRow :: [squareFootRow]) =
      Except.error ("Boundary type is " ++ "Point") := by
  refine ⟨rfl, ?_, ?_⟩
  · intro r hr t2 h
    rw [List.mem_singleton] at hr
    subst hr
    simp [goodFootRow] at h
  · exact pointArray_error_aborts_all [goodFootRow] [squareFootRow] badFootRow "Point"
      rfl (by intro r hr t2 h; rw [List.mem_singleton] at hr; subst hr; simp [goodFootRow] at h)

/-! ## C4: the shrink buffer is flat/mitred, not rounded -/

/-- Claim C4, counterexample: the erosion call
`g.buffer(-shrink, cap_style=2, join_style=2)` uses neither a rounded cap nor
a rounded join — shapely code 2 is flat for caps and mitre for joins, while
rounded is code 1. -/
theorem shrinkBuffer_not_round :
    ¬ (capStyleOfCode tessellationShrinkBuffer.capCode = some CapStyle.round ∨
       joinStyleOfCode tessellationShrinkBuffer.joinCode = some JoinStyle.round) := by
  decide

/-- Claim C4 amended: every footprint is eroded inward by `shrink`
(buffer distance `-shrink`), but with flat caps and mitred joins
(`cap_style=2, join_style=2`), not rounded ones. -/
theorem shrinkBuffer_flat_mitre {G : Type} (bufferOp : ℚ → ℕ → ℕ → G → G)
    (shrink : ℚ) (gs : List G) :
    capStyleOfCode tessellationShrinkBuffer.capCode = some CapStyle.flat ∧
    joinStyleOfCode tessellationShrinkBuffer.joinCode = some JoinStyle.mitre ∧
    tessellationShrinkBuffer.dist shrink = -shrink ∧
    shrinkGeoms bufferOp shrink gs = gs.map (bufferOp (-shrink) 2 2) :=
  ⟨rfl, rfl, rfl, rfl⟩

/-! ## C8: buildings and cells get their block id from the same table -/

theorem mergeOn_mem_table {α β : Type} {left : List (ℤ × α)}
    {table : List (ℤ × β)} {u : ℤ} {a : α} {b : β}
    (h : (u, a, b) ∈ mergeOn left table) : (u, b) ∈ table := by
  unfold mergeOn at h
  rw [List.mem_flatMap] at h
  obtain ⟨la, _, hmem⟩ := h
  rw [List.mem_map] at hmem
  obtain ⟨tr, htr, heq⟩ := hmem
  rw [List.mem_filter] at htr
  obtain ⟨htr1, htr2⟩ := htr
  rw [decide_eq_true_eq] at htr2
  have h1 : la.1 = u := congrArg Prod.fst heq
  have h3 : tr.2 = b := congrArg (fun x => x.2.2) heq
  have htr' : tr = (u, b) := by
    rcases tr with ⟨t1, t2⟩
    rw [Prod.mk.injEq]
    exact ⟨by rw [← h1]; exact htr2, h3⟩
  rw [← htr']
  exact htr1

theorem tableKeyUnique {β : Type} :
    ∀ (table : List (ℤ × β)), (table.map Prod.fst).Nodup →
    ∀ {u : ℤ} {b b2 : β}, (u, b) ∈ table → (u, b2) ∈ table → b = b2 := by
  intro table
  induction table with
  | nil => intro _ u b b2 h; exact absurd h (List.not_mem_nil _)
  | cons kv rest ih =>
      intro hnodup u b b2 hb hb2
      rw [List.map_cons, List.nodup_cons] at hnodup
      rcases List.mem_cons.mp hb with h1 | h1 <;>
        rcases List.mem_cons.mp hb2 with h2 | h2
      · rw [← h1] at h2; exact (Prod.mk.injEq .. ▸ h2).2.symm
      · exact absurd (List.mem_map.mpr ⟨(u, b2), h2, by rw [← h1]⟩) hnodup.1
      · exact absurd (List.mem_map.mpr ⟨(u, b), h1, by rw [← h2]⟩) hnodup.1
      · exact ih hnodup.2 h1 h2

/-- Claim C8: both the buildings frame and the tessellation frame receive the
block-id column by merging the same `bl_ID_to_uID` table on the shared unique
id, so whenever that table's keys are unique (one block id per building id),
a building row and a cell row with the same unique id carry the same block
id.  Cells inherit the building's id through this shared-table attribute
join; no second spatial query is involved. -/
theorem blocks_building_cell_id_match {α β γ : Type}
    (buildings : List (ℤ × α)) (cells : List (ℤ × β)) (table : List (ℤ × γ))
    (htable : (table.map Prod.fst).Nodup) (u : ℤ) (a : α) (c : β) (b b2 : γ)
    (hb : (u, a, b) ∈ mergeOn buildings table)
    (hc : (u, c, b2) ∈ mergeOn cells table) : b = b2 :=
  tableKeyUnique table htable (mergeOn_mem_table hb) (mergeOn_mem_table hc)

theorem blocks_building_cell_id_match_witness :
    ((([((5 : ℤ), (7 : ℤ))]).map Prod.fst).Nodup) ∧
    ((5 : ℤ), (10 : ℤ), (7 : ℤ)) ∈ mergeOn [((5 : ℤ), (10 : ℤ))] [((5 : ℤ), (7 : ℤ))] ∧
    ((5 : ℤ), (20 : ℤ), (7 : ℤ)) ∈ mergeOn [((5 : ℤ), (20 : ℤ))] [((5 : ℤ), (7 : ℤ))] ∧
    (7 : ℤ) = (7 : ℤ) := by
  refine ⟨by decide, by decide, by decide, ?_⟩
  exact blocks_building_cell_id_match [(5, 10)] [(5, 20)] [(5, 7)] (by decide)
    5 10 20 7 7 (by decide) (by decide)

/-! ## C2: clip resolution branches of `_cut` -/

theorem argmaxAux_spec (l : List ℕ) : ∀ (bi bv i : ℕ),
    (argmaxAux bi bv i l = bi ∧ ∀ d ∈ l, d ≤ bv) ∨
    (∃ j, j < l.length ∧ argmaxAux bi bv i l = i + j ∧ bv ≤ l.getD j 0 ∧
      ∀ d ∈ l, d ≤ l.getD j 0) := by
  induction l with
  | nil =>
      intro bi bv i
      left
      exact ⟨rfl, by simp⟩
  | cons a rest ih =>
      intro bi bv i
      by_cases h : bv < a
      · rw [show argmaxAux bi bv i (a :: rest) = argmaxAux i a (i + 1) rest by
          simp only [argmaxAux]; rw [if_pos h]]
        rcases ih i a (i + 1) with ⟨heq, hall⟩ | ⟨j, hj, heq, hge, hall⟩
        · right
          refine ⟨0, by simp, by rw [heq]; omega, ?_, ?_⟩
          · rw [List.getD_cons_zero]; exact Nat.le_of_lt h
          · intro d hd
            rw [List.getD_cons_zero]
            rcases List.mem_cons.mp hd with h1 | h1
            · exact h1.le
            · exact hall d h1
        · right
          refine ⟨j + 1, by simpa using hj, ?_, ?_, ?_⟩
          · rw [heq]; omega
          · rw [List.getD_cons_succ]; exact Nat.le_trans (Nat.le_of_lt h) hge
          · intro d hd
            rw [List.getD_cons_succ]
            rcases List.mem_cons.mp hd with h1 | h1
            · exact h1 ▸ hge
            · exact hall d h1
      · rw [show argmaxAux bi bv i (a :: rest) = argmaxAux bi bv (i + 1) rest by
          simp only [argmaxAux]; rw [if_neg h]]
        rcases ih bi bv (i + 1) with ⟨heq, hall⟩ | ⟨j, hj, heq, hge, hall⟩
        · left
          refine ⟨heq, ?_⟩
          intro d hd
          rcases List.mem_cons.mp hd with h1 | h1
          · omega
          · exact hall d h1
        · right
          refine ⟨j + 1, by simpa using hj, ?_, ?_, ?_⟩
          · rw [heq]; omega
          · rw [List.getD_cons_succ]; exact hge
          · intro d hd
            rw [List.getD_cons_succ]
            rcases List.mem_cons.mp hd with h1 | h1
            · subst h1; exact Nat.le_trans (Nat.le_of_not_lt h) hge
            · exact hall d h1

theorem selectLargest_spec (p : Poly) (ps : List Poly) :
    selectLargest p ps ∈ p :: ps ∧
      ∀ q ∈ p :: ps, q.area ≤ (selectLargest p ps).area := by
  unfold selectLargest argmaxFirst
  rcases argmaxAux_spec (ps.map Poly.area) 0 p.area 1 with
    ⟨heq, hall⟩ | ⟨j, hj, heq, hge, hall⟩
  · rw [heq]
    refine ⟨List.mem_cons_self p ps, ?_⟩
    intro q hq
    rw [List.getD_cons_zero]
    rcases List.mem_cons.mp hq with h1 | h1
    · rw [h1]
    · exact hall q.area (List.mem_map.mpr ⟨q, h1, rfl⟩)
  · rw [List.length_map] at hj
    rw [heq]
    have hidx : 1 + j = j + 1 := by omega
    rw [hidx, List.getD_cons_succ]
    have hgd : ps.getD j p = ps[j] := List.getD_eq_getElem ps p hj
    have hval : (ps.map Poly.area).getD j 0 = (ps[j]).area := by
      rw [List.getD_eq_getElem (ps.map Poly.area) 0 (by simpa using hj)]
      exact List.getElem_map Poly.area
    constructor
    · rw [hgd]
      exact List.mem_cons_of_mem p (List.getElem_mem hj)
    · intro q hq
      rw [hgd]
      rcases List.mem_cons.mp hq with h1 | h1
      · rw [h1, ← hval]; exact hge
      · rw [← hval]; exact hall q.area (List.mem_map.mpr ⟨q, h1, rfl⟩)

theorem lastPolyComp_go (suf : List BasicGeom)
    (hsuf : ∀ g ∈ suf, ∀ r, g ≠ BasicGeom.poly r) (acc : Option Poly) :
    suf.foldl (fun acc g => match g with
      | BasicGeom.poly p => some p
      | _ => acc) acc = acc := by
  induction suf generalizing acc with
  | nil => rfl
  | cons g rest ih =>
      have hg := hsuf g (List.mem_cons_self g rest)
      have hrest : ∀ g2 ∈ rest, ∀ r, g2 ≠ BasicGeom.poly r :=
        fun g2 h2 => hsuf g2 (List.mem_cons_of_mem g h2)
      match g with
      | BasicGeom.poly p => exact absurd rfl (hg p)
      | BasicGeom.lineString s => exact ih hrest acc
      | BasicGeom.point pt => exact ih hrest acc

theorem lastPolyComp_last (pre : List BasicGeom) (q : Poly) (suf : List BasicGeom)
    (hsuf : ∀ g ∈ suf, ∀ r, g ≠ BasicGeom.poly r) :
    lastPolyComp (pre ++ BasicGeom.poly q :: suf) = some q := by
  unfold lastPolyComp
  rw [List.foldl_append, List.foldl_cons]
  exact lastPolyComp_go suf hsuf (some q)

theorem clipCell_basic {interFn : Geom → Geom} {cell : Geom} {b : BasicGeom}
    (h : interFn cell = Geom.basic b) : clipCell interFn cell = Geom.basic b := by
  unfold clipCell
  rw [h]

theorem clipCell_multiCons {interFn : Geom → Geom} {cell : Geom} {p : Poly}
    {ps : List Poly} (h : interFn cell = Geom.multiPoly (p :: ps)) :
    clipCell interFn cell = Geom.basic (BasicGeom.poly (selectLargest p ps)) := by
  unfold clipCell
  rw [h]

theorem clipCell_multiNil {interFn : Geom → Geom} {cell : Geom}
    (h : interFn cell = Geom.multiPoly []) : clipCell interFn cell = cell := by
  unfold clipCell
  rw [h]

theorem clipCell_geomColl {interFn : Geom → Geom} {cell : Geom}
    {gs : List BasicGeom} (h : interFn cell = Geom.geomColl gs) :
    clipCell interFn cell = (match lastPolyComp gs with
      | some p => Geom.basic (BasicGeom.poly p)
      | none => cell) := by
  unfold clipCell
  rw [h]

/-- Claim C2: for each candidate cell, `_cut` resolves the intersection with
the limit as follows — a single polygon replaces the cell geometry; a
multi-polygon is replaced by a component of maximal area; a mixed geometry
collection is replaced by the last polygonal component encountered,
non-polygonal components being skipped. -/
theorem cut_clip_resolution (interFn : Geom → Geom) (cell : Geom) :
    (∀ p, interFn cell = Geom.basic (BasicGeom.poly p) →
      clipCell interFn cell = Geom.basic (BasicGeom.poly p)) ∧
    (∀ p ps, interFn cell = Geom.multiPoly (p :: ps) →
      ∃ q, clipCell interFn cell = Geom.basic (BasicGeom.poly q) ∧
        q ∈ p :: ps ∧ ∀ r ∈ p :: ps, r.area ≤ q.area) ∧
    (∀ pre q suf, interFn cell = Geom.geomColl (pre ++ BasicGeom.poly q :: suf) →
      (∀ g ∈ suf, ∀ r, g ≠ BasicGeom.poly r) →
      clipCell interFn cell = Geom.basic (BasicGeom.poly q)) := by
  refine ⟨?_, ?_, ?_⟩
  · intro p h
    exact clipCell_basic h
  · intro p ps h
    exact ⟨selectLargest p ps, clipCell_multiCons h, (selectLargest_spec p ps).1,
      (selectLargest_spec p ps).2⟩
  · intro pre q suf h hsuf
    rw [clipCell_geomColl h, lastPolyComp_last pre q suf hsuf]

theorem cut_clip_resolution_witness :
    (∃ q, clipCell (constInter (Geom.multiPoly [polyA, polyB]))
        (Geom.basic (BasicGeom.point (0, 0))) = Geom.basic (BasicGeom.poly q) ∧
      q ∈ [polyA, polyB] ∧ ∀ r ∈ [polyA, polyB], r.area ≤ q.area) ∧
    clipCell (constInter (Geom.geomColl [BasicGeom.poly polyA, BasicGeom.lineString ∅]))
        (Geom.basic (BasicGeom.point (0, 0))) = Geom.basic (BasicGeom.poly polyA) ∧
    clipCell (constInter (Geom.basic (BasicGeom.poly polyA)))
        (Geom.basic (BasicGeom.point (0, 0))) = Geom.basic (BasicGeom.poly polyA) := by
  refine ⟨(cut_clip_resolution _ _).2.1 polyA [polyB] rfl, ?_, ?_⟩
  · refine (cut_clip_resolution _ _).2.2 [] polyA [BasicGeom.lineString ∅] rfl ?_
    intro g hg r h
    rw [List.mem_singleton] at hg
    subst hg
    exact BasicGeom.noConfusion h
  · exact (cut_clip_resolution _ _).1 polyA rfl

/-! ## C9: clipping is idempotent -/

theorem foldr_union_sub {L : Finset (ℤ × ℤ)} :
    ∀ (l : List (Finset (ℤ × ℤ))), (∀ s ∈ l, s ⊆ L) →
      l.foldr (· ∪ ·) ∅ ⊆ L := by
  intro l
  induction l with
  | nil => intro _; simp
  | cons s rest ih =>
      intro h
      rw [List.foldr_cons]
      exact Finset.union_subset (h s (List.mem_cons_self s rest))
        (ih (fun s2 h2 => h s2 (List.mem_cons_of_mem s h2)))

theorem mem_foldr_union {β : Type} [DecidableEq β] :
    ∀ (l : List (Finset β)) (s : Finset β), s ∈ l → s ⊆ l.foldr (· ∪ ·) ∅ := by
  intro l
  induction l with
  | nil => intro s h; exact absurd h (List.not_mem_nil s)
  | cons a rest ih =>
      intro s h
      rw [List.foldr_cons]
      rcases List.mem_cons.mp h with h1 | h1
      · exact h1 ▸ Finset.subset_union_left
      · exact (ih s h1).trans Finset.subset_union_right

theorem sub_multiPoly_region {q : Poly} {ps : List Poly} (h : q ∈ ps) :
    q.pts ⊆ Geom.region (Geom.multiPoly ps) :=
  mem_foldr_union (ps.map Poly.pts) q.pts (List.mem_map.mpr ⟨q, h, rfl⟩)

theorem sub_geomColl_region {g : BasicGeom} {gs : List BasicGeom} (h : g ∈ gs) :
    g.region ⊆ Geom.region (Geom.geomColl gs) :=
  mem_foldr_union (gs.map BasicGeom.region) g.region (List.mem_map.mpr ⟨g, h, rfl⟩)

theorem lastPolyComp_mem :
    ∀ (gs : List BasicGeom) (acc : Option Poly) (q : Poly),
      gs.foldl (fun acc g => match g with
        | BasicGeom.poly p => some p
        | _ => acc) acc = some q →
      BasicGeom.poly q ∈ gs ∨ acc = some q := by
  intro gs
  induction gs with
  | nil => intro acc q h; exact Or.inr h
  | cons g rest ih =>
      intro acc q h
      rw [List.foldl_cons] at h
      match g with
      | BasicGeom.poly p =>
          rcases ih (some p) q h with h1 | h1
          · exact Or.inl (List.mem_cons_of_mem _ h1)
          · rw [Option.some.injEq] at h1
            exact Or.inl (h1 ▸ List.mem_cons_self _ _)
      | BasicGeom.lineString s =>
          rcases ih acc q h with h1 | h1
          · exact Or.inl (List.mem_cons_of_mem _ h1)
          · exact Or.inr h1
      | BasicGeom.point pt =>
          rcases ih acc q h with h1 | h1
          · exact Or.inl (List.mem_cons_of_mem _ h1)
          · exact Or.inr h1

/-- Claim C9: re-running the `_cut` clip resolution on an already clipped
cell with the same limit leaves the geometry unchanged.  The hypotheses state
what set intersection with the limit satisfies: the intersection result lies
within the limit, and a geometry already within the limit intersects to
itself. -/
theorem cut_idempotent (interFn : Geom → Geom) (L : Finset (ℤ × ℤ))
    (habs : ∀ g, Geom.region g ⊆ L → interFn g = g)
    (hsub : ∀ g, Geom.region (interFn g) ⊆ L) (cell : Geom) :
    clipCell interFn (clipCell interFn cell) = clipCell interFn cell := by
  match h : interFn cell with
  | Geom.multiPoly (p :: ps) =>
      have h1 := clipCell_multiCons h
      have hsubL : Geom.region (Geom.basic (BasicGeom.poly (selectLargest p ps))) ⊆ L := by
        refine Finset.Subset.trans ?_ (h ▸ hsub cell)
        exact sub_multiPoly_region (selectLargest_spec p ps).1
      rw [h1]
      exact clipCell_basic (habs _ hsubL)
  | Geom.multiPoly [] =>
      have h1 := clipCell_multiNil h
      rw [h1, h1]
  | Geom.geomColl gs =>
      match h2 : lastPolyComp gs with
      | some q =>
          have h1 : clipCell interFn cell = Geom.basic (BasicGeom.poly q) := by
            rw [clipCell_geomColl h, h2]
          have hmem : BasicGeom.poly q ∈ gs := by
            rcases lastPolyComp_mem gs none q h2 with h3 | h3
            · exact h3
            · exact Option.noConfusion h3
          have hsubL : Geom.region (Geom.basic (BasicGeom.poly q)) ⊆ L := by
            refine Finset.Subset.trans ?_ (h ▸ hsub cell)
            exact sub_geomColl_region hmem
          rw [h1]
          exact clipCell_basic (habs _ hsubL)
      | none =>
          have h1 : clipCell interFn cell = cell := by
            rw [clipCell_geomColl h, h2]
          rw [h1, h1]
  | Geom.basic b =>
      have h1 := clipCell_basic h
      have hsubL : Geom.region (Geom.basic b) ⊆ L := h ▸ hsub cell
      rw [h1]
      exact clipCell_basic (habs _ hsubL)

theorem interWith_sub (L : Finset (ℤ × ℤ)) :
    ∀ g, Geom.region (interWith L g) ⊆ L := by
  intro g
  match g with
  | Geom.basic (BasicGeom.poly p) =>
      exact Finset.inter_subset_right
  | Geom.basic (BasicGeom.lineString s) =>
      exact Finset.inter_subset_right
  | Geom.basic (BasicGeom.point pt) =>
      show Geom.region (if pt ∈ L then Geom.basic (BasicGeom.point pt)
        else Geom.basic (BasicGeom.lineString ∅)) ⊆ L
      by_cases h : pt ∈ L
      · rw [if_pos h]
        simpa [Geom.region, BasicGeom.region] using h
      · rw [if_neg h]
        simp [Geom.region, BasicGeom.region]
  | Geom.multiPoly ps =>
      refine foldr_union_sub _ ?_
      intro s hs
      rw [List.map_map, List.mem_map] at hs
      obtain ⟨q, _, hq⟩ := hs
      rw [← hq]
      exact Finset.inter_subset_right
  | Geom.geomColl gs =>
      refine foldr_union_sub _ ?_
      intro s hs
      rw [List.map_map, List.mem_map] at hs
      obtain ⟨b, _, hb⟩ := hs
      rw [← hb]
      match b with
      | BasicGeom.poly p => exact Finset.inter_subset_right
      | BasicGeom.lineString s2 => exact Finset.inter_subset_right
      | BasicGeom.point pt =>
          by_cases h : pt ∈ L
          · simp only [Function.comp_apply, if_pos h]
            simpa [BasicGeom.region] using h
          · simp only [Function.comp_apply, if_neg h]
            simp [BasicGeom.region]

theorem interWith_id (L : Finset (ℤ × ℤ)) :
    ∀ g, Geom.region g ⊆ L → interWith L g = g := by
  intro g hg
  match g with
  | Geom.basic (BasicGeom.poly p) =>
      show Geom.basic (BasicGeom.poly ⟨p.pts ∩ L⟩) = Geom.basic (BasicGeom.poly p)
      have hg2 : p.pts ⊆ L := hg
      rw [Finset.inter_eq_left.mpr hg2]
  | Geom.basic (BasicGeom.lineString s) =>
      show Geom.basic (BasicGeom.lineString (s ∩ L)) = Geom.basic (BasicGeom.lineString s)
      have hg2 : s ⊆ L := hg
      rw [Finset.inter_eq_left.mpr hg2]
  | Geom.basic (BasicGeom.point pt) =>
      have h : pt ∈ L := hg (by simp [Geom.region, BasicGeom.region])
      show (if pt ∈ L then Geom.basic (BasicGeom.point pt)
        else Geom.basic (BasicGeom.lineString ∅)) = Geom.basic (BasicGeom.point pt)
      rw [if_pos h]
  | Geom.multiPoly ps =>
      show Geom.multiPoly (ps.map fun p => (⟨p.pts ∩ L⟩ : Poly)) = Geom.multiPoly ps
      have hmap : ps.map (fun p => (⟨p.pts ∩ L⟩ : Poly)) = ps := by
        have : ∀ p ∈ ps, (⟨p.pts ∩ L⟩ : Poly) = p := by
          intro p hp
          have hsub : p.pts ⊆ L := (sub_multiPoly_region hp).trans hg
          rw [Finset.inter_eq_left.mpr hsub]
        rw [List.map_congr_left this, List.map_id']
      rw [hmap]
  | Geom.geomColl gs =>
      show Geom.geomColl (gs.map _) = Geom.geomColl gs
      have hmap : ∀ b ∈ gs, (match b with
          | BasicGeom.poly p => BasicGeom.poly (⟨p.pts ∩ L⟩ : Poly)
          | BasicGeom.lineString s => BasicGeom.lineString (s ∩ L)
          | BasicGeom.point pt => if pt ∈ L then BasicGeom.point pt
              else BasicGeom.lineString ∅) = b := by
        intro b hb
        have hsub : b.region ⊆ L := (sub_geomColl_region hb).trans hg
        match b with
        | BasicGeom.poly p =>
            show BasicGeom.poly ⟨p.pts ∩ L⟩ = BasicGeom.poly p
            have hsub2 : p.pts ⊆ L := hsub
            rw [Finset.inter_eq_left.mpr hsub2]
        | BasicGeom.lineString s =>
            show BasicGeom.lineString (s ∩ L) = BasicGeom.lineString s
            have hsub2 : s ⊆ L := hsub
            rw [Finset.inter_eq_left.mpr hsub2]
        | BasicGeom.point pt =>
            have h : pt ∈ L := hsub (by simp [BasicGeom.region])
            show (if pt ∈ L then BasicGeom.point pt else BasicGeom.lineString ∅) =
              BasicGeom.point pt
            rw [if_pos h]
      rw [List.map_congr_left hmap, List.map_id']

theorem cut_idempotent_witness :
    (∀ g, Geom.region g ⊆ limitL → interWith limitL g = g) ∧
    (∀ g, Geom.region (interWith limitL g) ⊆ limitL) ∧
    clipCell (interWith limitL) (clipCell (interWith limitL) cellC) =
      clipCell (interWith limitL) cellC :=
  ⟨interWith_id limitL, interWith_sub limitL,
    cut_idempotent (interWith limitL) limitL (interWith_id limitL)
      (interWith_sub limitL) cellC⟩

/-! ## C5: the building-crossing veto in `extend_line` -/

theorem commitChosen_veto {α : Type} (O : SnapOracle α) (net : List (Edge α))
    (idx : ℕ) (l t : List (ℚ × ℚ)) :
    (commitChosen O net idx l t).network = net ∨
    (O.buildingHit (commitChosen O net idx l t).lCoords = false ∧
      (commitChosen O net idx l t).network =
        setGeom net idx (commitChosen O net idx l t).lCoords) := by
  unfold commitChosen
  by_cases h1 : t.isEmpty
  · rw [if_pos h1]
    exact Or.inl rfl
  · rw [if_neg h1]
    by_cases h2 : O.buildingHit (l ++ [chosenPoint (l.getLastD (0, 0)) t]) = true
    · rw [if_pos h2]
      exact Or.inl rfl
    · rw [if_neg h2]
      exact Or.inr ⟨Bool.eq_false_iff.mpr h2, rfl⟩

/-- Claim C5: in `extend_line` (and equally in `extend_line_edge`) every
candidate extension is tested against the buildings before it is committed:
the network row can only be rewritten to an extended line on which the
building-intersection test came back empty (`buildingHit = false`); whenever
the test finds an intersection, the network is returned unchanged, so the
edge's geometry stays as it was. -/
theorem extendLine_building_veto {α : Type} (O : SnapOracle α) (tolS tolE : ℚ)
    (net : List (Edge α)) (idx : ℕ) (l : List (ℚ × ℚ)) :
    ((extendLine O tolS net idx l).network = net ∨
      (O.buildingHit (extendLine O tolS net idx l).lCoords = false ∧
        (extendLine O tolS net idx l).network =
          setGeom net idx (extendLine O tolS net idx l).lCoords)) ∧
    ((extendLineEdge O tolE net idx l).network = net ∨
      (O.buildingHit (extendLineEdge O tolE net idx l).lCoords = false ∧
        (extendLineEdge O tolE net idx l).network =
          setGeom net idx (extendLineEdge O tolE net idx l).lCoords)) := by
  constructor
  · cases h : usedExtra l with
    | none =>
        simp only [extendLine, h]
        left
        trivial
    | some e =>
        obtain ⟨e1, e2⟩ := e
        simp only [extendLine, h]
        by_cases h2 : (O.netInter net idx tolS e1 e2).any SegInter.nonEmpty
        · rw [if_pos h2]
          exact commitChosen_veto O net idx l _
        · rw [if_neg h2]
          left
          trivial
  · cases h : usedExtra l with
    | none =>
        simp only [extendLineEdge, h]
        left
        trivial
    | some e =>
        obtain ⟨e1, e2⟩ := e
        simp only [extendLineEdge, h]
        cases h2 : O.edgeInter tolE e1 e2 with
        | point p => exact commitChosen_veto O net idx l [p]
        | multiPoint p0 p1 rest => exact commitChosen_veto O net idx l [p0, p1]
        | geomCollection => left; trivial
        | otherKind => left; trivial

/-! ## C6: the appended point is the nearest intersection found, first on tie -/

/-- Python `min` scan with strict replacement: the returned index holds the
minimum value, and every earlier index holds a strictly larger value. -/
theorem minIdxAux_spec (l : List ℚ) : ∀ (bi : ℕ) (bv : ℚ) (i : ℕ),
    (minIdxAux bi bv i l = bi ∧ ∀ d ∈ l, bv ≤ d) ∨
    (∃ j, j < l.length ∧ minIdxAux bi bv i l = i + j ∧ l.getD j 0 < bv ∧
      (∀ m, m < j → l.getD j 0 < l.getD m 0) ∧ ∀ d ∈ l, l.getD j 0 ≤ d) := by
  induction l with
  | nil =>
      intro bi bv i
      left
      exact ⟨rfl, by simp⟩
  | cons d rest ih =>
      intro bi bv i
      by_cases h : d < bv
      · rw [show minIdxAux bi bv i (d :: rest) = minIdxAux i d (i + 1) rest by
          simp only [minIdxAux]; rw [if_pos h]]
        rcases ih i d (i + 1) with ⟨heq, hall⟩ | ⟨j, hj, heq, hlt, hfirst, hall⟩
        · right
          refine ⟨0, by simp, by rw [heq]; omega, ?_, ?_, ?_⟩
          · rw [List.getD_cons_zero]; exact h
          · intro m hm; omega
          · intro x hx
            rw [List.getD_cons_zero]
            rcases List.mem_cons.mp hx with h1 | h1
            · exact h1.ge
            · exact hall x h1
        · right
          refine ⟨j + 1, by simpa using hj, by rw [heq]; omega, ?_, ?_, ?_⟩
          · rw [List.getD_cons_succ]; exact lt_trans hlt h
          · intro m hm
            rw [List.getD_cons_succ]
            match m with
            | 0 => rw [List.getD_cons_zero]; exact hlt
            | m2 + 1 =>
                rw [List.getD_cons_succ]
                exact hfirst m2 (by omega)
          · intro x hx
            rw [List.getD_cons_succ]
            rcases List.mem_cons.mp hx with h1 | h1
            · subst h1; exact hlt.le
            · exact hall x h1
      · rw [show minIdxAux bi bv i (d :: rest) = minIdxAux bi bv (i + 1) rest by
          simp only [minIdxAux]; rw [if_neg h]]
        rcases ih bi bv (i + 1) with ⟨heq, hall⟩ | ⟨j, hj, heq, hlt, hfirst, hall⟩
        · left
          refine ⟨heq, ?_⟩
          intro x hx
          rcases List.mem_cons.mp hx with h1 | h1
          · subst h1; exact le_of_not_lt h
          · exact hall x h1
        · right
          refine ⟨j + 1, by simpa using hj, by rw [heq]; omega, ?_, ?_, ?_⟩
          · rw [List.getD_cons_succ]; exact hlt
          · intro m hm
            rw [List.getD_cons_succ]
            match m with
            | 0 =>
                rw [List.getD_cons_zero]
                exact lt_of_lt_of_le hlt (le_of_not_lt h)
            | m2 + 1 =>
                rw [List.getD_cons_succ]
                exact hfirst m2 (by omega)
          · intro x hx
            rw [List.getD_cons_succ]
            rcases List.mem_cons.mp hx with h1 | h1
            · subst h1; exact le_trans hlt.le (le_of_not_lt h)
            · exact hall x h1

theorem chosenPoint_spec (base : ℚ × ℚ) (p : ℚ × ℚ) (rest : List (ℚ × ℚ)) :
    chosenPoint base (p :: rest) ∈ p :: rest ∧
    (∀ q ∈ p :: rest, sqdist (chosenPoint base (p :: rest)) base ≤ sqdist q base) ∧
    ∃ k, k < (p :: rest).length ∧ (p :: rest).getD k (0, 0) = chosenPoint base (p :: rest) ∧
      ∀ m, m < k → sqdist (chosenPoint base (p :: rest)) base <
        sqdist ((p :: rest).getD m (0, 0)) base := by
  by_cases hrest : rest.isEmpty
  · have h0 : rest = [] := List.isEmpty_iff.mp hrest
    subst h0
    have hc : chosenPoint base [p] = p := rfl
    rw [hc]
    refine ⟨List.mem_singleton_self p, ?_, 0, by simp, rfl, by intro m hm; omega⟩
    intro q hq
    rw [List.mem_singleton] at hq
    subst hq
    exact le_refl _
  · have hc : chosenPoint base (p :: rest) =
        (p :: rest).getD (minIdxFirst (sqdist p base)
          (rest.map (fun q => sqdist q base))) p := by
      simp only [chosenPoint]
      rw [if_neg (by simpa using hrest)]
    unfold minIdxFirst at hc
    rcases minIdxAux_spec (rest.map (fun q => sqdist q base)) 0 (sqdist p base) 1 with
      ⟨heq, hall⟩ | ⟨j, hj, heq, hlt, hfirst, hall⟩
    · rw [heq, List.getD_cons_zero] at hc
      rw [hc]
      refine ⟨List.mem_cons_self p rest, ?_, 0, by simp, rfl, by intro m hm; omega⟩
      intro q hq
      rcases List.mem_cons.mp hq with h1 | h1
      · rw [h1]
      · exact hall (sqdist q base) (List.mem_map.mpr ⟨q, h1, rfl⟩)
    · rw [List.length_map] at hj
      rw [heq] at hc
      have hidx : 1 + j = j + 1 := by omega
      rw [hidx, List.getD_cons_succ, List.getD_eq_getElem rest p hj] at hc
      have hval : (rest.map (fun q => sqdist q base)).getD j 0 = sqdist (rest[j]) base := by
        rw [List.getD_eq_getElem (rest.map (fun q => sqdist q base)) 0 (by simpa using hj)]
        exact List.getElem_map _
      refine ⟨hc ▸ List.mem_cons_of_mem p (List.getElem_mem hj), ?_, j + 1,
        by simp; omega, ?_, ?_⟩
      · intro q hq
        rw [hc, ← hval]
        rcases List.mem_cons.mp hq with h1 | h1
        · rw [h1]; exact hlt.le
        · exact hall (sqdist q base) (List.mem_map.mpr ⟨q, h1, rfl⟩)
      · rw [List.getD_cons_succ, List.getD_eq_getElem rest (0, 0) hj, hc]
      · intro m hm
        rw [hc, ← hval]
        match m with
        | 0 =>
            rw [List.getD_cons_zero]
            exact hlt
        | m2 + 1 =>
            rw [List.getD_cons_succ]
            have hm2 : m2 < j := by omega
            have hm2len : m2 < rest.length := by omega
            have hv2 : (rest.map (fun q => sqdist q base)).getD m2 0 =
                sqdist (rest.getD m2 (0, 0)) base := by
              rw [List.getD_eq_getElem (rest.map (fun q => sqdist q base)) 0
                (by simpa using hm2len), List.getD_eq_getElem rest (0, 0) hm2len]
              exact List.getElem_map _
            rw [List.getD_eq_getElem rest (0, 0) hm2len] at hv2 ⊢
            rw [← hv2]
            exact hfirst m2 hm2

theorem list_ne_append_singleton {β : Type} (l : List β) (p : β) :
    l ≠ l ++ [p] := by
  intro h
  have := congrArg List.length h
  simp at this

/-- Claim C6: whenever `extend_line` appends a coordinate to the edge, that
coordinate is a member of the collected intersection points `true_int`, its
distance to the endpoint being extended (the last coordinate of `l_coords`)
is minimal among them, and it is the first point of `true_int` attaining that
minimum (every earlier point is strictly farther), matching the
strict-replacement scan of Python `min`. -/
theorem extendLine_nearest {α : Type} (O : SnapOracle α) (tolerance : ℚ)
    (net : List (Edge α)) (idx : ℕ) (l : List (ℚ × ℚ)) (p : ℚ × ℚ)
    (happ : (extendLine O tolerance net idx l).lCoords = l ++ [p]) :
    ∃ e1 e2, usedExtra l = some (e1, e2) ∧
      p ∈ trueInt (O.netInter net idx tolerance e1 e2) ∧
      (∀ q ∈ trueInt (O.netInter net idx tolerance e1 e2),
        sqdist p (l.getLastD (0, 0)) ≤ sqdist q (l.getLastD (0, 0))) ∧
      ∃ k, k < (trueInt (O.netInter net idx tolerance e1 e2)).length ∧
        (trueInt (O.netInter net idx tolerance e1 e2)).getD k (0, 0) = p ∧
        ∀ m, m < k → sqdist p (l.getLastD (0, 0)) <
          sqdist ((trueInt (O.netInter net idx tolerance e1 e2)).getD m (0, 0))
            (l.getLastD (0, 0)) := by
  cases h : usedExtra l with
  | none =>
      simp only [extendLine, h] at happ
      exact absurd happ (list_ne_append_singleton l p)
  | some e =>
      obtain ⟨e1, e2⟩ := e
      simp only [extendLine, h] at happ
      by_cases h2 : (O.netInter net idx tolerance e1 e2).any SegInter.nonEmpty
      · rw [if_pos h2] at happ
        unfold commitChosen at happ
        by_cases h3 : (trueInt (O.netInter net idx tolerance e1 e2)).isEmpty
        · rw [if_pos h3] at happ
          exact absurd happ (list_ne_append_singleton l p)
        · rw [if_neg h3] at happ
          have happ2 : l ++ [chosenPoint (l.getLastD (0, 0))
              (trueInt (O.netInter net idx tolerance e1 e2))] = l ++ [p] := by
            by_cases h4 : O.buildingHit (l ++ [chosenPoint (l.getLastD (0, 0))
                (trueInt (O.netInter net idx tolerance e1 e2))]) = true
            · rw [if_pos h4] at happ
              exact happ
            · rw [if_neg h4] at happ
              exact happ
          have hp : chosenPoint (l.getLastD (0, 0))
              (trueInt (O.netInter net idx tolerance e1 e2)) = p := by
            have := List.append_cancel_left happ2
            simpa using this
          match ht : trueInt (O.netInter net idx tolerance e1 e2) with
          | [] => rw [ht] at h3; exact absurd rfl h3
          | t0 :: trest =>
              have hspec := chosenPoint_spec (l.getLastD (0, 0)) t0 trest
              rw [← ht, hp] at hspec
              exact ⟨e1, e2, rfl, hspec.1, hspec.2.1, hspec.2.2⟩
      · rw [if_neg h2] at happ
        exact absurd happ (list_ne_append_singleton l p)

theorem extendLine_nearest_witness :
    (extendLine twoPointOracle 1 [sampleEdge] 0 [(0, 0), (1, 0)]).lCoords =
      [(0, 0), (1, 0)] ++ [(2, 0)] ∧
    ∃ e1 e2, usedExtra [((0 : ℚ), (0 : ℚ)), (1, 0)] = some (e1, e2) ∧
      (2, 0) ∈ trueInt (twoPointOracle.netInter [sampleEdge] 0 1 e1 e2) ∧
      (∀ q ∈ trueInt (twoPointOracle.netInter [sampleEdge] 0 1 e1 e2),
        sqdist (2, 0) ([((0 : ℚ), (0 : ℚ)), (1, 0)].getLastD (0, 0)) ≤
          sqdist q ([((0 : ℚ), (0 : ℚ)), (1, 0)].getLastD (0, 0))) ∧
      ∃ k, k < (trueInt (twoPointOracle.netInter [sampleEdge] 0 1 e1 e2)).length ∧
        (trueInt (twoPointOracle.netInter [sampleEdge] 0 1 e1 e2)).getD k (0, 0) = (2, 0) ∧
        ∀ m, m < k → sqdist (2, 0) ([((0 : ℚ), (0 : ℚ)), (1, 0)].getLastD (0, 0)) <
          sqdist ((trueInt (twoPointOracle.netInter [sampleEdge] 0 1 e1 e2)).getD m (0, 0))
            ([((0 : ℚ), (0 : ℚ)), (1, 0)].getLastD (0, 0)) :=
  ⟨by norm_num [extendLine, usedExtra, sqdist, commitChosen, chosenPoint,
      minIdxFirst, minIdxAux, trueInt, twoPointOracle, sampleEdge,
      SegInter.nonEmpty],
    extendLine_nearest twoPointOracle 1 [sampleEdge] 0 [(0, 0), (1, 0)] (2, 0)
      (by norm_num [extendLine, usedExtra, sqdist, commitChosen, chosenPoint,
        minIdxFirst, minIdxAux, trueInt, twoPointOracle, sampleEdge,
        SegInter.nonEmpty])⟩

/-! ## C10: `snap_street_network_edge` returns the same rows, with geometry
changed only by endpoint extension -/

theorem commitChosen_shape {α : Type} (O : SnapOracle α) (net : List (Edge α))
    (idx : ℕ) (l t : List (ℚ × ℚ)) :
    (commitChosen O net idx l t).retFalse = false ∧
    (((commitChosen O net idx l t).network = net ∧
        (commitChosen O net idx l t).lCoords = l) ∨
      ∃ p, (commitChosen O net idx l t).lCoords = l ++ [p] ∧
        ((commitChosen O net idx l t).network = net ∨
          (commitChosen O net idx l t).network = setGeom net idx (l ++ [p]))) := by
  unfold commitChosen
  by_cases h1 : t.isEmpty
  · rw [if_pos h1]
    exact ⟨rfl, Or.inl ⟨rfl, rfl⟩⟩
  · rw [if_neg h1]
    by_cases h2 : O.buildingHit (l ++ [chosenPoint (l.getLastD (0, 0)) t]) = true
    · rw [if_pos h2]
      exact ⟨rfl, Or.inr ⟨_, rfl, Or.inl rfl⟩⟩
    · rw [if_neg h2]
      exact ⟨rfl, Or.inr ⟨_, rfl, Or.inr rfl⟩⟩

theorem extendLine_shape {α : Type} (O : SnapOracle α) (tol : ℚ)
    (net : List (Edge α)) (idx : ℕ) (l : List (ℚ × ℚ)) :
    ((extendLine O tol net idx l).retFalse = true →
      (extendLine O tol net idx l).network = net ∧
      (extendLine O tol net idx l).lCoords = l) ∧
    (((extendLine O tol net idx l).network = net ∧
        (extendLine O tol net idx l).lCoords = l) ∨
      ∃ p, (extendLine O tol net idx l).lCoords = l ++ [p] ∧
        ((extendLine O tol net idx l).network = net ∨
          (extendLine O tol net idx l).network = setGeom net idx (l ++ [p]))) := by
  cases h : usedExtra l with
  | none =>
      have hE : extendLine O tol net idx l = ⟨net, l, true⟩ := by
        simp only [extendLine, h]
      rw [hE]
      exact ⟨fun _ => ⟨rfl, rfl⟩, Or.inl ⟨rfl, rfl⟩⟩
  | some e =>
      obtain ⟨e1, e2⟩ := e
      by_cases h2 : (O.netInter net idx tol e1 e2).any SegInter.nonEmpty
      · have hE : extendLine O tol net idx l =
            commitChosen O net idx l (trueInt (O.netInter net idx tol e1 e2)) := by
          simp only [extendLine, h]
          rw [if_pos h2]
        rw [hE]
        have hc := commitChosen_shape O net idx l (trueInt (O.netInter net idx tol e1 e2))
        refine ⟨fun hf => ?_, hc.2⟩
        rw [hc.1] at hf
        exact absurd hf (by simp)
      · have hE : extendLine O tol net idx l = ⟨net, l, true⟩ := by
          simp only [extendLine, h]
          rw [if_neg h2]
        rw [hE]
        exact ⟨fun _ => ⟨rfl, rfl⟩, Or.inl ⟨rfl, rfl⟩⟩

theorem extendLineEdge_shape {α : Type} (O : SnapOracle α) (tol : ℚ)
    (net : List (Edge α)) (idx : ℕ) (l : List (ℚ × ℚ)) :
    ((extendLineEdge O tol net idx l).network = net ∧
        (extendLineEdge O tol net idx l).lCoords = l) ∨
      ∃ p, (extendLineEdge O tol net idx l).lCoords = l ++ [p] ∧
        ((extendLineEdge O tol net idx l).network = net ∨
          (extendLineEdge O tol net idx l).network = setGeom net idx (l ++ [p])) := by
  cases h : usedExtra l with
  | none =>
      have hE : extendLineEdge O tol net idx l = ⟨net, l, true⟩ := by
        simp only [extendLineEdge, h]
      rw [hE]
      exact Or.inl ⟨rfl, rfl⟩
  | some e =>
      obtain ⟨e1, e2⟩ := e
      cases h2 : O.edgeInter tol e1 e2 with
      | point p =>
          have hE : extendLineEdge O tol net idx l = commitChosen O net idx l [p] := by
            simp only [extendLineEdge, h, h2]
          rw [hE]
          exact (commitChosen_shape O net idx l [p]).2
      | multiPoint p0 p1 rest =>
          have hE : extendLineEdge O tol net idx l =
              commitChosen O net idx l [p0, p1] := by
            simp only [extendLineEdge, h, h2]
          rw [hE]
          exact (commitChosen_shape O net idx l [p0, p1]).2
      | geomCollection =>
          have hE : extendLineEdge O tol net idx l = ⟨net, l, false⟩ := by
            simp only [extendLineEdge, h, h2]
          rw [hE]
          exact Or.inl ⟨rfl, rfl⟩
      | otherKind =>
          have hE : extendLineEdge O tol net idx l = ⟨net, l, false⟩ := by
            simp only [extendLineEdge, h, h2]
          rw [hE]
          exact Or.inl ⟨rfl, rfl⟩

theorem extendWithFallback_shape {α : Type} (O : SnapOracle α) (tolS tolE : ℚ)
    (net : List (Edge α)) (idx : ℕ) (l : List (ℚ × ℚ)) :
    ((extendWithFallback O tolS tolE net idx l).network = net ∧
        (extendWithFallback O tolS tolE net idx l).lCoords = l) ∨
      ∃ p, (extendWithFallback O tolS tolE net idx l).lCoords = l ++ [p] ∧
        ((extendWithFallback O tolS tolE net idx l).network = net ∨
          (extendWithFallback O tolS tolE net idx l).network =
            setGeom net idx (l ++ [p])) := by
  have hL := extendLine_shape O tolS net idx l
  by_cases hf : (extendLine O tolS net idx l).retFalse = true
  · obtain ⟨hnet, hl⟩ := hL.1 hf
    have hr : extendWithFallback O tolS tolE net idx l =
        extendLineEdge O tolE net idx l := by
      simp only [extendWithFallback]
      rw [if_pos hf, hnet, hl]
    rw [hr]
    exact extendLineEdge_shape O tolE net idx l
  · have hr : extendWithFallback O tolS tolE net idx l =
        extendLine O tolS net idx l := by
      simp only [extendWithFallback]
      rw [if_neg hf]
    rw [hr]
    exact hL.2

theorem setGeom_length {α : Type} (net : List (Edge α)) (idx : ℕ)
    (g : List (ℚ × ℚ)) : (setGeom net idx g).length = net.length := by
  unfold setGeom
  exact List.length_map net _

theorem setGeom_getElem {α : Type} (net : List (Edge α)) (idx : ℕ)
    (g : List (ℚ × ℚ)) (k : ℕ) (hk : k < net.length)
    (hk2 : k < (setGeom net idx g).length) :
    (setGeom net idx g)[k] =
      if net[k].eid = idx then { net[k] with geom := g } else net[k] := by
  unfold setGeom at hk2 ⊢
  exact List.getElem_map _

theorem setGeom_setGeom {α : Type} (net : List (Edge α)) (idx : ℕ)
    (g1 g2 : List (ℚ × ℚ)) :
    setGeom (setGeom net idx g1) idx g2 = setGeom net idx g2 := by
  unfold setGeom
  rw [List.map_map]
  apply List.map_congr_left
  intro e _
  by_cases he : e.eid = idx
  · simp [Function.comp, he]
  · simp [Function.comp, he]

theorem find?_key_unique {α : Type} :
    ∀ (net : List (Edge α)), (net.map Edge.eid).Nodup →
    ∀ (k : ℕ) (hk : k < net.length) (i : ℕ), net[k].eid = i →
    net.find? (fun e => e.eid = i) = some net[k] := by
  intro net
  induction net with
  | nil =>
      intro _ k hk
      simp at hk
  | cons e rest ih =>
      intro hnodup k hk i hki
      rw [List.map_cons, List.nodup_cons] at hnodup
      match k with
      | 0 =>
          rw [List.getElem_cons_zero] at hki ⊢
          exact List.find?_cons_of_pos _ (by simp [hki])
      | k2 + 1 =>
          rw [List.getElem_cons_succ] at hki ⊢
          have hk2 : k2 < rest.length := by
            rw [List.length_cons] at hk
            omega
          have hne : ¬ e.eid = i := by
            intro he
            refine hnodup.1 ?_
            rw [he, ← hki]
            exact List.mem_map.mpr ⟨rest[k2], List.getElem_mem hk2, rfl⟩
          rw [List.find?_cons_of_neg _ (by simp [hne])]
          exact ih hnodup.2 k2 hk2 i hki

theorem extendedFrom_refl (g : List (ℚ × ℚ)) : ExtendedFrom g g :=
  Or.inl rfl

theorem snapEdge_cases {α : Type} (O : SnapOracle α) (tolS tolE : ℚ)
    (net : List (Edge α)) (idx : ℕ) :
    snapEdge O tolS tolE net idx = net ∨
    ∃ e g2, net.find? (fun e2 => e2.eid = idx) = some e ∧ ExtendedFrom e.geom g2 ∧
      snapEdge O tolS tolE net idx = setGeom net idx g2 := by
  cases hfind : net.find? (fun e2 => e2.eid = idx) with
  | none =>
      left
      simp only [snapEdge, hfind]
  | some e =>
      cases hc1 : O.connected net idx (e.geom.headD (0, 0)) <;>
        cases hc2 : O.connected net idx (e.geom.getLastD (0, 0))
      · -- both ends loose
        have hsnap : snapEdge O tolS tolE net idx =
            (extendWithFallback O tolS tolE
              (extendWithFallback O tolS tolE net idx e.geom).network idx
              (extendWithFallback O tolS tolE net idx e.geom).lCoords.reverse).network := by
          simp only [snapEdge, hfind]
          rw [hc1, hc2]
          simp
        rcases extendWithFallback_shape O tolS tolE net idx e.geom with
          ⟨hnet1, hl1⟩ | ⟨p, hl1, hnet1⟩
        · rw [hnet1, hl1] at hsnap
          rcases extendWithFallback_shape O tolS tolE net idx e.geom.reverse with
            ⟨hnet2, _⟩ | ⟨q, _, hnet2⟩
          · left; rw [hsnap, hnet2]
          · rcases hnet2 with hnet2 | hnet2
            · left; rw [hsnap, hnet2]
            · right
              exact ⟨e, e.geom.reverse ++ [q], rfl,
                Or.inr (Or.inr (Or.inl ⟨q, rfl⟩)), by rw [hsnap, hnet2]⟩
        · rw [hl1] at hsnap
          rcases hnet1 with hnet1 | hnet1
          · rw [hnet1] at hsnap
            rcases extendWithFallback_shape O tolS tolE net idx
                (e.geom ++ [p]).reverse with ⟨hnet2, _⟩ | ⟨q, _, hnet2⟩
            · left; rw [hsnap, hnet2]
            · rcases hnet2 with hnet2 | hnet2
              · left; rw [hsnap, hnet2]
              · right
                exact ⟨e, (e.geom ++ [p]).reverse ++ [q], rfl,
                  Or.inr (Or.inr (Or.inr ⟨p, q, rfl⟩)), by rw [hsnap, hnet2]⟩
          · rw [hnet1] at hsnap
            rcases extendWithFallback_shape O tolS tolE
                (setGeom net idx (e.geom ++ [p])) idx
                (e.geom ++ [p]).reverse with ⟨hnet2, _⟩ | ⟨q, _, hnet2⟩
            · right
              exact ⟨e, e.geom ++ [p], rfl, Or.inr (Or.inl ⟨p, rfl⟩),
                by rw [hsnap, hnet2]⟩
            · rcases hnet2 with hnet2 | hnet2
              · right
                exact ⟨e, e.geom ++ [p], rfl, Or.inr (Or.inl ⟨p, rfl⟩),
                  by rw [hsnap, hnet2]⟩
              · right
                refine ⟨e, (e.geom ++ [p]).reverse ++ [q], rfl,
                  Or.inr (Or.inr (Or.inr ⟨p, q, rfl⟩)), ?_⟩
                rw [hsnap, hnet2, setGeom_setGeom]
      · -- start loose, end connected: extend the reversed line
        have hsnap : snapEdge O tolS tolE net idx =
            (extendWithFallback O tolS tolE net idx e.geom.reverse).network := by
          simp only [snapEdge, hfind]
          rw [hc1, hc2]
          simp
        rcases extendWithFallback_shape O tolS tolE net idx e.geom.reverse with
          ⟨hnet1, _⟩ | ⟨p, _, hnet1⟩
        · left; rw [hsnap, hnet1]
        · rcases hnet1 with hnet1 | hnet1
          · left; rw [hsnap, hnet1]
          · right
            exact ⟨e, e.geom.reverse ++ [p], rfl,
              Or.inr (Or.inr (Or.inl ⟨p, rfl⟩)), by rw [hsnap, hnet1]⟩
      · -- start connected, end loose
        have hsnap : snapEdge O tolS tolE net idx =
            (extendWithFallback O tolS tolE net idx e.geom).network := by
          simp only [snapEdge, hfind]
          rw [hc1, hc2]
          simp
        rcases extendWithFallback_shape O tolS tolE net idx e.geom with
          ⟨hnet1, _⟩ | ⟨p, _, hnet1⟩
        · left; rw [hsnap, hnet1]
        · rcases hnet1 with hnet1 | hnet1
          · left; rw [hsnap, hnet1]
          · right
            exact ⟨e, e.geom ++ [p], rfl, Or.inr (Or.inl ⟨p, rfl⟩),
              by rw [hsnap, hnet1]⟩
      · -- both ends connected
        left
        simp only [snapEdge, hfind]
        rw [hc1, hc2]
        simp

theorem snapFold_inv {α : Type} (O : SnapOracle α) (tolS tolE : ℚ)
    (edges : List (Edge α)) (hnodup : (edges.map Edge.eid).Nodup) :
    ∀ (ids : List ℕ), ids.Nodup →
    ∀ (net : List (Edge α)), net.length = edges.length →
    (∀ (k : ℕ) (hk : k < edges.length) (hk2 : k < net.length),
      net[k].eid = edges[k].eid ∧ net[k].attrs = edges[k].attrs ∧
      ExtendedFrom edges[k].geom net[k].geom ∧
      (edges[k].eid ∈ ids → net[k].geom = edges[k].geom)) →
    (ids.foldl (fun n i => snapEdge O tolS tolE n i) net).length = edges.length ∧
    ∀ (k : ℕ) (hk : k < edges.length)
      (hk2 : k < (ids.foldl (fun n i => snapEdge O tolS tolE n i) net).length),
      (ids.foldl (fun n i => snapEdge O tolS tolE n i) net)[k].eid = edges[k].eid ∧
      (ids.foldl (fun n i => snapEdge O tolS tolE n i) net)[k].attrs = edges[k].attrs ∧
      ExtendedFrom edges[k].geom
        (ids.foldl (fun n i => snapEdge O tolS tolE n i) net)[k].geom := by
  intro ids
  induction ids with
  | nil =>
      intro _ net hlen hinv
      refine ⟨hlen, ?_⟩
      intro k hk hk2
      obtain ⟨h1, h2, h3, _⟩ := hinv k hk hk2
      exact ⟨h1, h2, h3⟩
  | cons idx rest ih =>
      intro hids net hlen hinv
      rw [List.nodup_cons] at hids
      rw [List.foldl_cons]
      have hmapeq : net.map Edge.eid = edges.map Edge.eid := by
        apply List.ext_getElem (by simp [hlen])
        intro i h1 h2
        rw [List.length_map] at h1 h2
        rw [List.getElem_map, List.getElem_map]
        exact (hinv i (by omega) (by omega)).1
      have hnetnodup : (net.map Edge.eid).Nodup := by rw [hmapeq]; exact hnodup
      rcases snapEdge_cases O tolS tolE net idx with hsame | ⟨e0, g2, hfind, hext, hset⟩
      · rw [hsame]
        refine ih hids.2 net hlen ?_
        intro k hk hk2
        obtain ⟨h1, h2, h3, h4⟩ := hinv k hk hk2
        exact ⟨h1, h2, h3, fun hmem => h4 (List.mem_cons_of_mem idx hmem)⟩
      · rw [hset]
        refine ih hids.2 (setGeom net idx g2) (by rw [setGeom_length, hlen]) ?_
        intro k hk hk2
        have hk2n : k < net.length := by rw [setGeom_length] at hk2; exact hk2
        obtain ⟨h1, h2, h3, h4⟩ := hinv k hk hk2n
        rw [setGeom_getElem net idx g2 k hk2n hk2]
        by_cases hkidx : net[k].eid = idx
        · have he0 : e0 = net[k] := by
            have := find?_key_unique net hnetnodup k hk2n idx hkidx
            rw [hfind] at this
            exact Option.some.inj this
          have hgeom : net[k].geom = edges[k].geom :=
            h4 (by rw [← h1, hkidx]; exact List.mem_cons_self idx rest)
          rw [if_pos hkidx]
          refine ⟨h1, h2, ?_, ?_⟩
          · show ExtendedFrom edges[k].geom g2
            rw [← hgeom, ← he0]
            exact hext
          · intro hmem
            rw [← h1, hkidx] at hmem
            exact absurd hmem hids.1
        · rw [if_neg hkidx]
          exact ⟨h1, h2, h3, fun hmem => h4 (List.mem_cons_of_mem idx hmem)⟩

/-- Claim C10: `snap_street_network_edge` works on `network = edges.copy()`
and returns a frame with exactly the input's rows: same length, same row
labels in the same order, non-geometry columns unchanged, and each row's
geometry obtained from the input geometry only by endpoint extension — it is
the original coordinate sequence, possibly with one intersection point
appended at the end, or appended after in-place reversal (an extension of the
start point; the traversed curve is the same), or one point appended at each
end. -/
theorem snapNetwork_frame_effect {α : Type} (O : SnapOracle α) (tolS tolE : ℚ)
    (edges : List (Edge α)) (hnodup : (edges.map Edge.eid).Nodup) :
    (snapNetwork O tolS tolE edges).length = edges.length ∧
    ∀ (k : ℕ) (hk : k < edges.length)
      (hk2 : k < (snapNetwork O tolS tolE edges).length),
      (snapNetwork O tolS tolE edges)[k].eid = edges[k].eid ∧
      (snapNetwork O tolS tolE edges)[k].attrs = edges[k].attrs ∧
      ExtendedFrom edges[k].geom (snapNetwork O tolS tolE edges)[k].geom := by
  unfold snapNetwork
  refine snapFold_inv O tolS tolE edges hnodup (edges.map Edge.eid)
    hnodup edges rfl ?_
  intro k hk hk2
  exact ⟨rfl, rfl, extendedFrom_refl _, fun _ => rfl⟩

theorem snapNetwork_frame_effect_witness :
    (([sampleEdge].map Edge.eid).Nodup) ∧
    ((snapNetwork emptyOracle 1 1 [sampleEdge]).length = [sampleEdge].length ∧
    ∀ (k : ℕ) (hk : k < [sampleEdge].length)
      (hk2 : k < (snapNetwork emptyOracle 1 1 [sampleEdge]).length),
      (snapNetwork emptyOracle 1 1 [sampleEdge])[k].eid = [sampleEdge][k].eid ∧
      (snapNetwork emptyOracle 1 1 [sampleEdge])[k].attrs = [sampleEdge][k].attrs ∧
      ExtendedFrom [sampleEdge][k].geom (snapNetwork emptyOracle 1 1 [sampleEdge])[k].geom) :=
  ⟨by decide, snapNetwork_frame_effect emptyOracle 1 1 [sampleEdge] (by decide)⟩

/-! ## C7: the block partition does not depend on fragment order -/

theorem bfs_visited_subset {n : ℕ} (adj : Fin n → List (Fin n)) :
    ∀ (fuel : ℕ) (queue : List (Fin n)) (visited : Finset (Fin n)),
      visited ⊆ bfsFuel adj fuel queue visited := by
  intro fuel
  induction fuel with
  | zero => intro queue visited; exact Finset.Subset.refl _
  | succ fuel ih =>
      intro queue visited
      cases queue with
      | nil => exact Finset.Subset.refl _
      | cons x rest =>
          simp only [bfsFuel]
          by_cases hx : x ∈ visited
          · rw [if_pos hx]
            exact ih rest visited
          · rw [if_neg hx]
            exact Finset.Subset.trans (Finset.subset_insert x visited)
              (ih (rest ++ adj x) (insert x visited))

theorem bfs_reach {n : ℕ} (adj : Fin n → List (Fin n)) (s : Fin n) :
    ∀ (fuel : ℕ) (queue : List (Fin n)) (visited : Finset (Fin n)),
      (∀ x ∈ queue, Conn adj s x) → (∀ x ∈ visited, Conn adj s x) →
      ∀ x ∈ bfsFuel adj fuel queue visited, Conn adj s x := by
  intro fuel
  induction fuel with
  | zero => intro queue visited _ hv; exact hv
  | succ fuel ih =>
      intro queue visited hq hv
      cases queue with
      | nil => exact hv
      | cons x rest =>
          simp only [bfsFuel]
          by_cases hx : x ∈ visited
          · rw [if_pos hx]
            exact ih rest visited (fun y hy => hq y (List.mem_cons_of_mem x hy)) hv
          · rw [if_neg hx]
            refine ih (rest ++ adj x) (insert x visited) ?_ ?_
            · intro y hy
              rcases List.mem_append.mp hy with h1 | h1
              · exact hq y (List.mem_cons_of_mem x h1)
              · exact Relation.ReflTransGen.tail (hq x (List.mem_cons_self x rest)) h1
            · intro y hy
              rcases Finset.mem_insert.mp hy with h1 | h1
              · exact h1 ▸ hq x (List.mem_cons_self x rest)
              · exact hv y h1

theorem measure_split (m c A : ℕ) (h : c < m) :
    (m - c) * (A + 1) = (m - (c + 1)) * (A + 1) + (A + 1) := by
  have hnc : m - c = (m - (c + 1)) + 1 := by omega
  rw [hnc]
  ring

theorem bfs_closed {n : ℕ} (adj : Fin n → List (Fin n)) :
    ∀ (fuel : ℕ) (queue : List (Fin n)) (visited : Finset (Fin n)),
      (n - visited.card) * (adjBound adj + 1) + queue.length ≤ fuel →
      (∀ v ∈ visited, ∀ w ∈ adj v, w ∈ visited ∨ w ∈ queue) →
      ∀ v ∈ bfsFuel adj fuel queue visited, ∀ w ∈ adj v,
        w ∈ bfsFuel adj fuel queue visited := by
  intro fuel
  induction fuel with
  | zero =>
      intro queue visited hfuel hc v hv w hw
      generalize hM : (n - visited.card) * (adjBound adj + 1) = M at hfuel
      have hq0 : queue = [] := List.length_eq_zero.mp (by omega)
      subst hq0
      rcases hc v hv w hw with h1 | h1
      · exact h1
      · exact absurd h1 (List.not_mem_nil w)
  | succ fuel ih =>
      intro queue visited hfuel hc
      cases queue with
      | nil =>
          intro v hv w hw
          rcases hc v hv w hw with h1 | h1
          · exact h1
          · exact absurd h1 (List.not_mem_nil w)
      | cons x rest =>
          simp only [bfsFuel]
          by_cases hx : x ∈ visited
          · rw [if_pos hx]
            refine ih rest visited ?_ ?_
            · rw [List.length_cons] at hfuel
              generalize hM : (n - visited.card) * (adjBound adj + 1) = M at hfuel
              generalize hM2 : (n - visited.card) * (adjBound adj + 1) = M2
              rw [hM] at hM2
              omega
            · intro v hv w hw
              rcases hc v hv w hw with h1 | h1
              · exact Or.inl h1
              · rcases List.mem_cons.mp h1 with h2 | h2
                · exact Or.inl (h2 ▸ hx)
                · exact Or.inr h2
          · rw [if_neg hx]
            have hcard : visited.card < n := by
              have := Finset.card_lt_univ_of_not_mem hx
              simpa using this
            have hA : (adj x).length ≤ adjBound adj :=
              @Finset.le_sup ℕ (Fin n) _ _ Finset.univ
                (fun v => (adj v).length) x (Finset.mem_univ x)
            refine ih (rest ++ adj x) (insert x visited) ?_ ?_
            · rw [Finset.card_insert_of_not_mem hx, List.length_append]
              rw [List.length_cons,
                measure_split n visited.card (adjBound adj) hcard] at hfuel
              generalize hM : (n - (visited.card + 1)) * (adjBound adj + 1) = M at hfuel ⊢
              omega
            · intro v hv w hw
              rcases Finset.mem_insert.mp hv with h1 | h1
              · subst h1
                exact Or.inr (List.mem_append_right rest hw)
              · rcases hc v h1 w hw with h2 | h2
                · exact Or.inl (Finset.mem_insert_of_mem h2)
                · rcases List.mem_cons.mp h2 with h3 | h3
                  · exact Or.inl (h3 ▸ Finset.mem_insert_self x visited)
                  · exact Or.inr (List.mem_append_left (adj x) h3)

theorem mem_component {n : ℕ} (adj : Fin n → List (Fin n)) (s : Fin n) (x : Fin n) :
    x ∈ component adj s ↔ Conn adj s x := by
  constructor
  · intro hx
    refine bfs_reach adj s (componentFuel adj) (adj s) {s} ?_ ?_ x hx
    · intro y hy
      exact Relation.ReflTransGen.single hy
    · intro y hy
      rw [Finset.mem_singleton] at hy
      exact hy ▸ Relation.ReflTransGen.refl
  · intro hconn
    have hn : 0 < n := s.pos
    have hA : (adj s).length ≤ adjBound adj :=
      @Finset.le_sup ℕ (Fin n) _ _ Finset.univ
        (fun v => (adj v).length) s (Finset.mem_univ s)
    have hfuel : (n - ({s} : Finset (Fin n)).card) * (adjBound adj + 1) +
        (adj s).length ≤ componentFuel adj := by
      rw [Finset.card_singleton]
      unfold componentFuel
      have h2 := measure_split n 0 (adjBound adj) hn
      rw [Nat.sub_zero] at h2
      rw [h2]
      generalize hM : (n - (0 + 1)) * (adjBound adj + 1) = M
      generalize hM2 : (n - 1) * (adjBound adj + 1) = M2 at *
      omega
    have hc : ∀ v ∈ ({s} : Finset (Fin n)), ∀ w ∈ adj v, w ∈ ({s} : Finset (Fin n)) ∨ w ∈ adj s := by
      intro v hv w hw
      rw [Finset.mem_singleton] at hv
      exact Or.inr (hv ▸ hw)
    have hclosed := bfs_closed adj (componentFuel adj) (adj s) {s} hfuel hc
    have hs_mem : s ∈ component adj s :=
      bfs_visited_subset adj (componentFuel adj) (adj s) {s} (Finset.mem_singleton_self s)
    induction hconn with
    | refl => exact hs_mem
    | tail hab hbc ih => exact hclosed _ ih _ hbc

theorem conn_symm {n : ℕ} {adj : Fin n → List (Fin n)}
    (hsym : ∀ a b, a ∈ adj b ↔ b ∈ adj a) {a b : Fin n}
    (h : Conn adj a b) : Conn adj b a :=
  Relation.ReflTransGen.symmetric (fun x y hxy => (hsym x y).mpr hxy) h

theorem blocksLoop_inv {n : ℕ} (adj : Fin n → List (Fin n))
    (hsym : ∀ a b, a ∈ adj b ↔ b ∈ adj a) :
    ∀ (pending : List (Fin n)) (p : Fin n → Option ℕ) (j : ℕ),
    (∀ v w, Conn adj v w → p v = p w) →
    (∀ v w, p v ≠ none → p v = p w → Conn adj v w) →
    (∀ v k, p v = some k → k < j) →
    (∀ v w, Conn adj v w →
      blocksLoop adj pending p j v = blocksLoop adj pending p j w) ∧
    (∀ v w, blocksLoop adj pending p j v ≠ none →
      blocksLoop adj pending p j v = blocksLoop adj pending p j w →
      Conn adj v w) := by
  intro pending
  induction pending with
  | nil =>
      intro p j h1 h2 _
      exact ⟨h1, h2⟩
  | cons idx rest ih =>
      intro p j h1 h2 h3
      cases hpidx : p idx with
      | some k =>
          have heq : ∀ v, blocksLoop adj (idx :: rest) p j v =
              blocksLoop adj rest p j v := by
            intro v
            simp only [blocksLoop, hpidx]
          simp only [heq]
          exact ih p j h1 h2 h3
      | none =>
          have heq : ∀ v, blocksLoop adj (idx :: rest) p j v =
              blocksLoop adj rest
                (fun v2 => if v2 ∈ component adj idx then some j else p v2)
                (j + 1) v := by
            intro v
            simp only [blocksLoop, hpidx]
          simp only [heq]
          refine ih _ (j + 1) ?_ ?_ ?_
          · intro v w hvw
            by_cases hv : Conn adj idx v
            · have hw : Conn adj idx w := Relation.ReflTransGen.trans hv hvw
              rw [if_pos ((mem_component adj idx v).mpr hv),
                if_pos ((mem_component adj idx w).mpr hw)]
            · have hw : ¬ Conn adj idx w := by
                intro hw
                exact hv (Relation.ReflTransGen.trans hw (conn_symm hsym hvw))
              rw [if_neg (fun hm => hv ((mem_component adj idx v).mp hm)),
                if_neg (fun hm => hw ((mem_component adj idx w).mp hm))]
              exact h1 v w hvw
          · intro v w hne hvw
            by_cases hv : Conn adj idx v <;> by_cases hw : Conn adj idx w
            · exact Relation.ReflTransGen.trans (conn_symm hsym hv) hw
            · rw [if_pos ((mem_component adj idx v).mpr hv),
                if_neg (fun hm => hw ((mem_component adj idx w).mp hm))] at hvw
              exact absurd (h3 w j hvw.symm) (by omega)
            · rw [if_neg (fun hm => hv ((mem_component adj idx v).mp hm)),
                if_pos ((mem_component adj idx w).mpr hw)] at hvw
              exact absurd (h3 v j hvw) (by omega)
            · rw [if_neg (fun hm => hv ((mem_component adj idx v).mp hm))] at hvw hne
              rw [if_neg (fun hm => hw ((mem_component adj idx w).mp hm))] at hvw
              exact h2 v w hne hvw
          · intro v k hvk
            by_cases hv : Conn adj idx v
            · rw [if_pos ((mem_component adj idx v).mpr hv)] at hvk
              rw [Option.some.injEq] at hvk
              omega
            · rw [if_neg (fun hm => hv ((mem_component adj idx v).mp hm))] at hvk
              have := h3 v k hvk
              omega

theorem blocksLoop_none {n : ℕ} (adj : Fin n → List (Fin n)) :
    ∀ (pending : List (Fin n)) (p : Fin n → Option ℕ) (j : ℕ) (v : Fin n),
      blocksLoop adj pending p j v = none → p v = none := by
  intro pending
  induction pending with
  | nil => intro p j v h; exact h
  | cons idx rest ih =>
      intro p j v h
      cases hpidx : p idx with
      | some k =>
          rw [show blocksLoop adj (idx :: rest) p j v = blocksLoop adj rest p j v by
            simp only [blocksLoop, hpidx]] at h
          exact ih p j v h
      | none =>
          rw [show blocksLoop adj (idx :: rest) p j v =
              blocksLoop adj rest
                (fun v2 => if v2 ∈ component adj idx then some j else p v2)
                (j + 1) v by simp only [blocksLoop, hpidx]] at h
          have := ih _ (j + 1) v h
          by_cases hv : v ∈ component adj idx
          · rw [if_pos hv] at this
            exact Option.noConfusion this
          · rw [if_neg hv] at this
            exact this

theorem blocksLoop_total {n : ℕ} (adj : Fin n → List (Fin n)) :
    ∀ (pending : List (Fin n)) (p : Fin n → Option ℕ) (j : ℕ) (v : Fin n),
      v ∈ pending → blocksLoop adj pending p j v ≠ none := by
  intro pending
  induction pending with
  | nil => intro p j v hv; exact absurd hv (List.not_mem_nil v)
  | cons idx rest ih =>
      intro p j v hv hnone
      cases hpidx : p idx with
      | some k =>
          rw [show blocksLoop adj (idx :: rest) p j v = blocksLoop adj rest p j v by
            simp only [blocksLoop, hpidx]] at hnone
          rcases List.mem_cons.mp hv with h1 | h1
          · subst h1
            exact absurd (blocksLoop_none adj rest p j v hnone) (by rw [hpidx]; simp)
          · exact ih p j v h1 hnone
      | none =>
          rw [show blocksLoop adj (idx :: rest) p j v =
              blocksLoop adj rest
                (fun v2 => if v2 ∈ component adj idx then some j else p v2)
                (j + 1) v by simp only [blocksLoop, hpidx]] at hnone
          have hres := blocksLoop_none adj rest _ (j + 1) v hnone
          rcases List.mem_cons.mp hv with h1 | h1
          · subst h1
            rw [if_pos ((mem_component adj v v).mpr Relation.ReflTransGen.refl)] at hres
            exact Option.noConfusion hres
          · exact ih _ (j + 1) v h1 hnone

/-- Fragments are grouped together by the `blocks` outer loop exactly when
they are connected in the Queen adjacency graph. -/
theorem patchOf_eq_iff {n : ℕ} (adj : Fin n → List (Fin n))
    (hsym : ∀ a b, a ∈ adj b ↔ b ∈ adj a) (i j : Fin n) :
    patchOf adj i = patchOf adj j ↔ Conn adj i j := by
  obtain ⟨I1, I2⟩ := blocksLoop_inv adj hsym (List.finRange n) (fun _ => none) 1
    (fun _ _ _ => rfl) (fun v _ hv _ => absurd rfl hv) (fun _ _ h => Option.noConfusion h)
  constructor
  · intro heq
    exact I2 i j (blocksLoop_total adj (List.finRange n) (fun _ => none) 1 i
      (List.mem_finRange i)) heq
  · intro hconn
    exact I1 i j hconn

theorem rel_relabel {n : ℕ} (adj : Fin n → List (Fin n)) (σ : Equiv.Perm (Fin n))
    (a b : Fin n) : b ∈ relabel adj σ a ↔ σ b ∈ adj (σ a) := by
  unfold relabel
  rw [List.mem_map]
  constructor
  · rintro ⟨c, hc, hcb⟩
    have : c = σ b := by
      rw [← hcb]
      exact (Equiv.apply_symm_apply σ c).symm
    exact this ▸ hc
  · intro hb
    exact ⟨σ b, hb, Equiv.symm_apply_apply σ b⟩

theorem conn_relabel {n : ℕ} (adj : Fin n → List (Fin n)) (σ : Equiv.Perm (Fin n))
    (a b : Fin n) : Conn (relabel adj σ) a b ↔ Conn adj (σ a) (σ b) := by
  constructor
  · intro h
    induction h with
    | refl => exact Relation.ReflTransGen.refl
    | tail hab hbc ih =>
        exact Relation.ReflTransGen.tail ih ((rel_relabel adj σ _ _).mp hbc)
  · intro h
    have hgen : ∀ (x y : Fin n), Conn adj x y →
        Conn (relabel adj σ) (σ.symm x) (σ.symm y) := by
      intro x y hxy
      induction hxy with
      | refl => exact Relation.ReflTransGen.refl
      | tail hab hbc ih =>
          refine Relation.ReflTransGen.tail ih ?_
          show _ ∈ relabel adj σ _
          rw [rel_relabel, Equiv.apply_symm_apply, Equiv.apply_symm_apply]
          exact hbc
    have := hgen (σ a) (σ b) h
    rwa [Equiv.symm_apply_apply, Equiv.symm_apply_apply] at this

theorem hsym_relabel {n : ℕ} (adj : Fin n → List (Fin n))
    (hsym : ∀ a b, a ∈ adj b ↔ b ∈ adj a) (σ : Equiv.Perm (Fin n)) :
    ∀ a b, a ∈ relabel adj σ b ↔ b ∈ relabel adj σ a := by
  intro a b
  rw [rel_relabel, rel_relabel]
  exact hsym (σ a) (σ b)

/-- Claim C7: the connected-component assignment of `blocks` (lines 657-681)
partitions the fragments the same way no matter in which order the fragments
are fed in.  Feeding the fragments in the order given by a permutation `σ`
relabels the Queen graph by `σ`; two fragments end up with equal patch ids in
the permuted run exactly when their images do in the original run — the
partition is the same, only the arbitrary numbering of the ids may differ.
Queen adjacency is symmetric, which is the `hsym` hypothesis. -/
theorem blocks_partition_order_invariant {n : ℕ} (adj : Fin n → List (Fin n))
    (hsym : ∀ a b, a ∈ adj b ↔ b ∈ adj a) (σ : Equiv.Perm (Fin n)) (i j : Fin n) :
    (patchOf (relabel adj σ) i = patchOf (relabel adj σ) j) ↔
      (patchOf adj (σ i) = patchOf adj (σ j)) := by
  rw [patchOf_eq_iff (relabel adj σ) (hsym_relabel adj hsym σ) i j,
    patchOf_eq_iff adj hsym (σ i) (σ j)]
  exact conn_relabel adj σ i j

theorem blocks_partition_order_invariant_witness :
    (∀ a b : Fin 3, a ∈ adj3 b ↔ b ∈ adj3 a) ∧
    ((patchOf (relabel adj3 (Equiv.swap 0 2)) 0 =
        patchOf (relabel adj3 (Equiv.swap 0 2)) 1) ↔
      (patchOf adj3 ((Equiv.swap 0 2) 0) = patchOf adj3 ((Equiv.swap 0 2) 1))) :=
  ⟨by decide, blocks_partition_order_invariant adj3 (by decide) (Equiv.swap 0 2) 0 1⟩

end Momepy
